import Mathlib

/-!
Verification development for the interleaved synthetic dataset generator
(`script.py`) and the explain-plan shard counter (`test_runner/app.py`).

The Python sources are shallowly embedded: randomness is made explicit as
draw parameters, machine floats are modelled by exact rationals with
round-half-to-even, Python dicts built with `defaultdict(int)` are modelled
as association lists with unique keys, and the streamed JSON artifact is
modelled character-by-character together with a recursive-descent parser.
-/

/-! ### Configuration constants (script.py lines 10-16) -/

def NUM_CATEGORIES : ℕ := 100
def VENDOR_COUNT : ℕ := 100
def ATTRIBUTES_PER_PRODUCT : ℕ := 3
def SPLIT_PARTS : ℕ := 4
def PRODUCTS_PER_FILE : ℕ := 2500000
def TOTAL_PRODUCTS : ℕ := PRODUCTS_PER_FILE * SPLIT_PARTS

/-! ### Characters and strings -/

/-- Convert a string literal to the character-list representation used
throughout this development. -/
def str (s : String) : List Char := s.toList

/-- The double-quote character. -/
def qc : Char := Char.ofNat 34

/-- The opening curly brace character. -/
def obr : Char := Char.ofNat 123

/-- The closing curly brace character. -/
def cbr : Char := Char.ofNat 125

/-- Decimal digit characters. -/
def digitChar : ℕ → Char
  | 0 => '0' | 1 => '1' | 2 => '2' | 3 => '3' | 4 => '4'
  | 5 => '5' | 6 => '6' | 7 => '7' | 8 => '8' | _ => '9'

def isDigitC (c : Char) : Bool := decide (48 ≤ c.toNat) && decide (c.toNat ≤ 57)

def digitVal (c : Char) : ℕ := c.toNat - 48

/-- Positional value of a list of decimal digit characters. -/
def digitsVal (ds : List Char) : ℕ := ds.foldl (fun a c => a * 10 + digitVal c) 0

/-- Fuel-bounded decimal rendering of a natural number (most significant
digit first). -/
def natToDigitsF : ℕ → ℕ → List Char
  | 0, _ => []
  | fuel + 1, n =>
    if n < 10 then [digitChar n]
    else natToDigitsF fuel (n / 10) ++ [digitChar (n % 10)]

/-- Decimal rendering of a natural number, models Python `str(n)` for an
`int`. -/
def natToDigits (n : ℕ) : List Char := natToDigitsF (n + 1) n

/-! ### Fixed vocabularies (script.py lines 25-29) -/

def WORDS : List (List Char) :=
  [str "Electronics", str "Apparel", str "HomeGoods", str "Tools",
   str "Books", str "Software", str "Sporting"]

def PHRASES : List (List Char) :=
  [str "Ultimate Pro Gadget", str "Smart Home Device", str "Vintage Look Accessory",
   str "High Performance Tool", str "Economical Choice"]

def RAMS : List ℕ := [8, 16, 32, 64]

def STORAGES : List ℕ := [128, 256, 512, 1024]

def COLORS : List (List Char) :=
  [str "Red", str "Blue", str "Green", str "Black", str "White", str "Silver"]

/-- Model of `random.choice(seq)`: the entropy draw `i` selects an element
of the (nonempty) sequence. -/
def pychoice {α : Type} (l : List α) (d0 : α) (i : ℕ) : α := l.getD (i % l.length) d0

/-! ### Rounding (models Python `round(x, d)` on exact rationals,
round-half-to-even) -/

/-- Round a rational to the nearest integer, ties to the even integer. -/
def rndHalfEven (q : ℚ) : ℤ :=
  if 2 * (q - ⌊q⌋) = 1 then (if ⌊q⌋ % 2 = 0 then ⌊q⌋ else ⌊q⌋ + 1)
  else round q

/-- Model of Python `round(q, d)` for nonnegative exponents. -/
def pyround (q : ℚ) (d : ℕ) : ℚ := (rndHalfEven (q * 10 ^ d) : ℚ) / 10 ^ d

/-! ### Random record builder (script.py lines 37-65) -/

/-- One record's worth of entropy: the outcomes of the random primitives
consumed by `generate_product_json`, in the order the source draws them.
The uniform draws (`priceU`, `ratingU`) are the raw results of
`random.uniform`, which the caller constrains to the requested interval. -/
structure Draws where
  ramD : ℕ
  storageD : ℕ
  colorD : ℕ
  vendorD : ℕ
  categoryD : ℕ
  phraseD : ℕ
  priceU : ℚ
  ratingU : ℚ

/-- `generate_attribute(attribute_index)`: slot 0 is a RAM attribute,
slot 1 a Storage attribute, anything else a Color attribute. -/
def generate_attribute (attribute_index : ℕ) (d : Draws) : List Char × List Char :=
  if attribute_index = 0 then
    (str "RAM", natToDigits (pychoice RAMS 0 d.ramD) ++ str "GB")
  else if attribute_index = 1 then
    (str "Storage", natToDigits (pychoice STORAGES 0 d.storageD) ++ str "GB SSD")
  else
    (str "Color", pychoice COLORS [] d.colorD)

/-- A product dictionary, with the exact field set of the literal at
script.py lines 56-64 (note the source spells the attribute key
`"attributs"`). -/
structure Product where
  name : List Char
  price : ℚ
  rating : ℚ
  attributs : List (List Char × List Char)
  category_id : ℕ
  vendor_id : ℕ
  product_id : ℕ

/-- `generate_product_json(global_product_id)`: builds one product record
and returns it together with the selected vendor and category ids. -/
def generate_product_json (global_product_id : ℕ) (d : Draws) : Product × ℕ × ℕ :=
  let attributes := (List.range ATTRIBUTES_PER_PRODUCT).map (fun i => generate_attribute i d)
  let vendor_id := d.vendorD % VENDOR_COUNT
  let category_id := d.categoryD % NUM_CATEGORIES
  let product : Product :=
    { name := pychoice PHRASES [] d.phraseD
      price := pyround d.priceU 2
      rating := pyround d.ratingU 1
      attributs := attributes
      category_id := category_id
      vendor_id := vendor_id
      product_id := global_product_id }
  (product, vendor_id, category_id)

/-! ### Tallies: `defaultdict(int)` counters as association lists -/

/-- Association-list lookup (first matching key). -/
def dget (m : List (ℕ × ℕ)) (k : ℕ) : Option ℕ :=
  match m with
  | [] => none
  | (k2, v) :: rest => if k = k2 then some v else dget rest k

/-- `defaultdict(int)` read: missing keys count as 0. -/
def dgetD (m : List (ℕ × ℕ)) (k : ℕ) : ℕ := (dget m k).getD 0

/-- `m[k] += add` on a `defaultdict(int)`. -/
def bumpBy (m : List (ℕ × ℕ)) (k add : ℕ) : List (ℕ × ℕ) :=
  if (dget m k).isSome then m.map (fun p => if p.1 = k then (p.1, p.2 + add) else p)
  else m ++ [(k, add)]

/-- The per-partition counter loop: `counts[x] += 1` for each id in the
stream (script.py lines 89-90). -/
def tallyOf (ids : List ℕ) : List (ℕ × ℕ) := ids.foldl (fun m k => bumpBy m k 1) []

/-- The value a partition returns on success (script.py lines 108-112). -/
structure PartResult where
  file_index : ℕ
  category_counts : List (ℕ × ℕ)
  vendor_counts : List (ℕ × ℕ)

/-! ### Partition writer (script.py lines 68-112) -/

/-- The contiguous ids a partition owns: `start_product_id + i` for
`i in range(PRODUCTS_PER_FILE)` (script.py line 85). -/
def partitionIds (start_product_id : ℕ) : List ℕ :=
  (List.range PRODUCTS_PER_FILE).map (fun i => start_product_id + i)

/-- The records a partition generates, given its per-iteration entropy. -/
def partitionProducts (start_product_id : ℕ) (rnd : ℕ → Draws) : List Product :=
  (List.range PRODUCTS_PER_FILE).map
    (fun i => (generate_product_json (start_product_id + i) (rnd i)).1)

/-- `generate_interleaved_products_for_file`: on an I/O error the whole
partition reports no tally (`None`) and logs the partition index and cause;
on success it returns the category and vendor tallies of its records.
The second component is the log output. -/
def generate_interleaved_products_for_file (file_part_index start_product_id : ℕ)
    (rnd : ℕ → Draws) (ioError : Option (List Char)) :
    Option PartResult × List (List Char) :=
  match ioError with
  | some e =>
    (none, [str "Error writing file " ++ natToDigits file_part_index ++ str ": " ++ e])
  | none =>
    let ps := partitionProducts start_product_id rnd
    (some { file_index := file_part_index
            category_counts := tallyOf (ps.map Product.category_id)
            vendor_counts := tallyOf (ps.map Product.vendor_id) }, [])

/-! ### Orchestrator task list (script.py lines 187-191) -/

/-- The task-building loop: `k` remaining iterations, current file index
`i`, current start id `cur`; each step appends `(i, cur)` and advances
`cur` by `PRODUCTS_PER_FILE`. -/
def mkTasks : ℕ → ℕ → ℕ → List (ℕ × ℕ)
  | 0, _, _ => []
  | k + 1, i, cur => (i, cur) :: mkTasks k (i + 1) (cur + PRODUCTS_PER_FILE)

/-- The tasks `run_interleaved_generation` submits. -/
def run_interleaved_generation_tasks : List (ℕ × ℕ) := mkTasks SPLIT_PARTS 1 0

/-! ### Base catalog (script.py lines 116-138) -/

structure Category where
  _id : ℕ
  label : List Char
  products_count : ℕ

structure Vendor where
  _id : ℕ
  full_name : List Char
  products_count : ℕ

/-- `generate_base_data`: the initial catalog, all counts zero. `wd i` is
the entropy consumed by `get_random_word()` for category `i`. -/
def generate_base_data (wd : ℕ → ℕ) : List Category × List Vendor :=
  ((List.range NUM_CATEGORIES).map (fun i =>
      { _id := i
        label := str "Category Label " ++ natToDigits i ++ str " - " ++ pychoice WORDS [] (wd i)
        products_count := 0 }),
   (List.range VENDOR_COUNT).map (fun i =>
      { _id := i
        full_name := str "Vendor Company " ++ natToDigits i
        products_count := 0 }))

/-- The aggregation inner loop: add one tally into the running totals
(script.py lines 151-154). -/
def addTally (m t : List (ℕ × ℕ)) : List (ℕ × ℕ) :=
  t.foldl (fun m2 p => bumpBy m2 p.1 p.2) m

/-- Aggregate a list of tallies into global totals (script.py lines
145-154). -/
def aggTallies (ts : List (List (ℕ × ℕ))) : List (ℕ × ℕ) := ts.foldl addTally []

/-- `update_base_data_counts(results)`: skip `None` results, aggregate the
remaining tallies, and set every entity's `products_count` to its total
(missing ids read as 0 from the `defaultdict`). The third component is the
log output. -/
def update_base_data_counts (results : List (Option PartResult))
    (categories_data : List Category) (vendors_data : List Vendor) :
    List Category × List Vendor × List (List Char) :=
  let contributing := results.filterMap id
  let total_category_counts := aggTallies (contributing.map PartResult.category_counts)
  let total_vendor_counts := aggTallies (contributing.map PartResult.vendor_counts)
  (categories_data.map (fun cat =>
      { cat with products_count := dgetD total_category_counts cat._id }),
   vendors_data.map (fun v =>
      { v with products_count := dgetD total_vendor_counts v._id }),
   ['\n' :: str "--- Base Data Counts Updated Successfully ---"])

/-! ### Shard counter (test_runner/app.py lines 39-56) -/

/-- A Python value as it appears in explain-plan output. -/
inductive PyVal where
  | vint : ℤ → PyVal
  | vstr : List Char → PyVal
  | vlist : List PyVal → PyVal
  | vdict : List (List Char × PyVal) → PyVal

/-- Python dict lookup (string keys). -/
def pyDictGet (l : List (List Char × PyVal)) (k : List Char) : Option PyVal :=
  match l with
  | [] => none
  | (k2, v) :: rest => if k = k2 then some v else pyDictGet rest k

/-- `x in l` for a Python list: only string elements can equal a string. -/
def pyInList (k : List Char) (l : List PyVal) : Bool :=
  l.any (fun v => match v with | .vstr t => t = k | _ => false)

/-- `v.get(k, dflt)`: raises `AttributeError` unless `v` is a dict. -/
def pyGetD (v : PyVal) (k : List Char) (dflt : PyVal) : Except Unit PyVal :=
  match v with
  | .vdict l => .ok ((pyDictGet l k).getD dflt)
  | _ => .error ()

/-- `k in v`: dict key test, list membership, substring test on strings;
raises `TypeError` on an int. -/
def pyContains (k : List Char) (v : PyVal) : Except Unit Bool :=
  match v with
  | .vdict l => .ok (pyDictGet l k).isSome
  | .vlist l => .ok (pyInList k l)
  | .vstr s => .ok (decide (List.IsInfix k s))
  | .vint _ => .error ()

/-- `v[k]` with a string key: only works on dicts, `KeyError` when the key
is missing, `TypeError` otherwise. -/
def pyIndexStr (v : PyVal) (k : List Char) : Except Unit PyVal :=
  match v with
  | .vdict l => match pyDictGet l k with | some x => .ok x | none => .error ()
  | _ => .error ()

/-- `len(v)`: raises `TypeError` on an int. -/
def pyLen (v : PyVal) : Except Unit ℕ :=
  match v with
  | .vstr s => .ok s.length
  | .vlist l => .ok l.length
  | .vdict l => .ok l.length
  | .vint _ => .error ()

/-- The body of `count_shards_from_explain` before the `except` handler;
every raising step propagates its exception. -/
def count_shards_inner (explain_json : PyVal) : Except Unit ℕ :=
  match pyGetD explain_json (str "executionStats") (.vdict []) with
  | .error e => .error e
  | .ok es =>
    match pyGetD es (str "executionStages") (.vdict []) with
    | .error e => .error e
    | .ok stages =>
      match pyContains (str "shards") stages with
      | .error e => .error e
      | .ok b =>
        if b then
          match pyIndexStr stages (str "shards") with
          | .error e => .error e
          | .ok sh => pyLen sh
        else
          match pyContains (str "shards") explain_json with
          | .error e => .error e
          | .ok b2 =>
            if b2 then
              match pyIndexStr explain_json (str "shards") with
              | .error e => .error e
              | .ok sh => pyLen sh
            else .ok 1

/-- `count_shards_from_explain`: any exception is caught and turned
into 0. -/
def count_shards_from_explain (explain_json : PyVal) : ℕ :=
  match count_shards_inner explain_json with
  | .ok n => n
  | .error _ => 0

/-! ### JSON values, serialization, and the streamed artifact
(script.py lines 81-98) -/

/-- A JSON value. `jnum m d` denotes the number `m / 10^d`, rendered with
exactly `d` digits after the decimal point (`d = 0` renders an integer). -/
inductive JVal where
  | jstr : List Char → JVal
  | jnum : ℕ → ℕ → JVal
  | jarr : List JVal → JVal
  | jobj : List (List Char × JVal) → JVal

/-- Decimal rendering of `jnum m d`. -/
def dumpNum (m d : ℕ) : List Char :=
  if d = 0 then natToDigits m
  else
    natToDigits (m / 10 ^ d) ++
      '.' :: (List.replicate (d - (natToDigits (m % 10 ^ d)).length) '0' ++
        natToDigits (m % 10 ^ d))

mutual

/-- Model of `json.dumps` with default separators. -/
def dumps : JVal → List Char
  | .jstr s => qc :: s ++ [qc]
  | .jnum m d => dumpNum m d
  | .jarr l => '[' :: sepBody ' ' l ++ [']']
  | .jobj fs => obr :: sepFields fs ++ [cbr]

/-- Array elements joined by a comma followed by the padding character
`c` (`' '` inside `json.dumps`, `'\n'` in the streamed artifact). -/
def sepBody (c : Char) : List JVal → List Char
  | [] => []
  | [v] => dumps v
  | v :: w :: rest => dumps v ++ ',' :: c :: sepBody c (w :: rest)

/-- Object fields `"key": value` joined by `", "`. -/
def sepFields : List (List Char × JVal) → List Char
  | [] => []
  | [(k, v)] => qc :: k ++ qc :: ':' :: ' ' :: dumps v
  | (k, v) :: f :: rest =>
    (qc :: k ++ qc :: ':' :: ' ' :: dumps v) ++ ',' :: ' ' :: sepFields (f :: rest)

end

/-- A rational with denominator dividing `10^d`, as a JSON number with `d`
decimal places. -/
def ratToJNum (q : ℚ) (d : ℕ) : JVal := .jnum (q * 10 ^ d).num.toNat d

/-- The dictionary `json.dumps` receives for one product: the literal at
script.py lines 56-64, in source order. -/
def productToJson (p : Product) : JVal :=
  .jobj
    [(str "name", .jstr p.name),
     (str "price", ratToJNum p.price 2),
     (str "rating", ratToJNum p.rating 1),
     (str "attributs", .jarr (p.attributs.map (fun a =>
        .jobj [(str "k", .jstr a.1), (str "v", .jstr a.2)]))),
     (str "category_id", .jnum p.category_id 0),
     (str "vendor_id", .jnum p.vendor_id 0),
     (str "product_id", .jnum p.product_id 0)]

/-- The top-level keys of a JSON object. -/
def objKeys : JVal → List (List Char)
  | .jobj fs => fs.map Prod.fst
  | _ => []

/-- The incremental writer output: `"[\n"`, then each record preceded by
`",\n"` except the first, then `"\n]"` (script.py lines 82-98). -/
def writerContent (items : List JVal) : List Char :=
  '[' :: '\n' :: sepBody '\n' items ++ '\n' :: [']']

/-- The artifact a successful partition leaves on disk. -/
def writerArtifact (start_product_id : ℕ) (rnd : ℕ → Draws) : List Char :=
  writerContent ((partitionProducts start_product_id rnd).map productToJson)

/-! ### A recursive-descent JSON parser (models `json.load` on the
artifact) -/

def wsChar (c : Char) : Bool := c = ' ' || c = '\n' || c = '\t' || c = '\r'

def skipWs (s : List Char) : List Char := s.dropWhile wsChar

/-- Parse a number token: digits, optionally a dot and more digits. -/
def parseNum (s : List Char) : Option (JVal × List Char) :=
  let ds := s.takeWhile isDigitC
  let r1 := s.dropWhile isDigitC
  if ds.isEmpty then none
  else
    match r1 with
    | c :: r2 =>
      if c = '.' then
        let fs := r2.takeWhile isDigitC
        let r3 := r2.dropWhile isDigitC
        if fs.isEmpty then none
        else some (.jnum (digitsVal ds * 10 ^ fs.length + digitsVal fs) fs.length, r3)
      else some (.jnum (digitsVal ds) 0, r1)
    | [] => some (.jnum (digitsVal ds) 0, [])

mutual

/-- Parse one JSON value (strings contain no escapes). -/
def parseValue : ℕ → List Char → Option (JVal × List Char)
  | 0, _ => none
  | fuel + 1, s =>
    match skipWs s with
    | [] => none
    | c :: r =>
      if c = qc then
        match r.dropWhile (fun x => x != qc) with
        | c2 :: r2 =>
          if c2 = qc then some (.jstr (r.takeWhile (fun x => x != qc)), r2) else none
        | [] => none
      else if c = '[' then
        match parseItems fuel r with
        | some (items, r2) => some (.jarr items, r2)
        | none => none
      else if c = obr then
        match parseFields fuel r with
        | some (fs, r2) => some (.jobj fs, r2)
        | none => none
      else if isDigitC c then parseNum (c :: r)
      else none

/-- Parse the items of an array after the opening bracket. -/
def parseItems : ℕ → List Char → Option (List JVal × List Char)
  | 0, _ => none
  | fuel + 1, s =>
    match skipWs s with
    | [] => none
    | c :: r =>
      if c = ']' then some ([], r)
      else
        match parseValue fuel s with
        | some (v, r1) =>
          match skipWs r1 with
          | c2 :: r2 =>
            if c2 = ',' then
              match parseItems fuel r2 with
              | some (vs, r3) => some (v :: vs, r3)
              | none => none
            else if c2 = ']' then some ([v], r2)
            else none
          | [] => none
        | none => none

/-- Parse the fields of an object after the opening brace. -/
def parseFields : ℕ → List Char → Option (List (List Char × JVal) × List Char)
  | 0, _ => none
  | fuel + 1, s =>
    match skipWs s with
    | [] => none
    | c :: r =>
      if c = cbr then some ([], r)
      else if c = qc then
        match r.dropWhile (fun x => x != qc) with
        | c2 :: r2 =>
          if c2 = qc then
            match skipWs r2 with
            | c3 :: r3 =>
              if c3 = ':' then
                match parseValue fuel r3 with
                | some (v, r4) =>
                  match skipWs r4 with
                  | c5 :: r5 =>
                    if c5 = ',' then
                      match parseFields fuel r5 with
                      | some (fs, r6) => some ((r.takeWhile (fun x => x != qc), v) :: fs, r6)
                      | none => none
                    else if c5 = cbr then some ([(r.takeWhile (fun x => x != qc), v)], r5)
                    else none
                  | [] => none
                | none => none
              else none
            | [] => none
          else none
        | [] => none
      else none

end

/-- Whole-input parse: one value followed only by whitespace. -/
def json_loads (s : List Char) : Option JVal :=
  match parseValue (2 * s.length + 2) s with
  | some (v, rest) => if (skipWs rest).isEmpty then some v else none
  | none => none

mutual

/-- Fuel needed by `parseValue`. -/
def jsize : JVal → ℕ
  | .jstr _ => 1
  | .jnum _ _ => 1
  | .jarr l => 1 + lsize l
  | .jobj fs => 1 + fsize fs

/-- Fuel needed by `parseItems`. -/
def lsize : List JVal → ℕ
  | [] => 1
  | v :: t => 1 + jsize v + lsize t

/-- Fuel needed by `parseFields`. -/
def fsize : List (List Char × JVal) → ℕ
  | [] => 1
  | (_, v) :: t => 1 + jsize v + fsize t

end

mutual

/-- Strings (and keys) contain no double quote, so the escape-free
serializer round-trips. -/
def WFJ : JVal → Prop
  | .jstr s => qc ∉ s
  | .jnum _ _ => True
  | .jarr l => WFL l
  | .jobj fs => WFF fs

def WFL : List JVal → Prop
  | [] => True
  | v :: t => WFJ v ∧ WFL t

def WFF : List (List Char × JVal) → Prop
  | [] => True
  | (k, v) :: t => qc ∉ k ∧ WFJ v ∧ WFF t

end

/-! ### Derived views of counters and catalogs (used to state properties) -/

/-- The keys of a counter. -/
def keysOf (m : List (ℕ × ℕ)) : List ℕ := m.map Prod.fst

/-- Unique keys: the invariant every Python dict enjoys. -/
def NoDupKeys (m : List (ℕ × ℕ)) : Prop := (m.map Prod.fst).Nodup

/-- Sum of all values stored in a counter. -/
def sumVals (m : List (ℕ × ℕ)) : ℕ := (m.map Prod.snd).sum

/-- Total weight a counter's entries assign to key `k`. -/
def tallyVal (t : List (ℕ × ℕ)) (k : ℕ) : ℕ :=
  (t.map (fun p => if p.1 = k then p.2 else 0)).sum

/-- Sum of the final `products_count` over the category collection. -/
def sumCounts (cats : List Category) : ℕ := (cats.map Category.products_count).sum

/-- Sum of the final `products_count` over the vendor collection. -/
def sumVCounts (vens : List Vendor) : ℕ := (vens.map Vendor.products_count).sum

/-- The result list produced by partitions whose record lists are given
(`none` for a failed partition): each success reports the tallies of its
own records, as in `generate_interleaved_products_for_file`. -/
def partsResults (parts : List (Option (List Product))) : List (Option PartResult) :=
  parts.map (Option.map (fun ps =>
    { file_index := 0
      category_counts := tallyOf (ps.map Product.category_id)
      vendor_counts := tallyOf (ps.map Product.vendor_id) }))

/-- Characters that may legally follow a serialized JSON value. -/
def delimChar (c : Char) : Bool := c = ',' || c = ']' || c = cbr || wsChar c

/-- A residual input that starts with a delimiter (or is empty), so that
number and string tokens cannot leak into it. -/
def DelimL (s : List Char) : Prop := s = [] ∨ ∃ c r, s = c :: r ∧ delimChar c = true

/-- All characters are whitespace. -/
def WsList (l : List Char) : Prop := ∀ c ∈ l, wsChar c = true

/-! ### Concrete inputs used to witness theorems with hypotheses -/

/-- A concrete entropy record with all-integral uniform draws. -/
def d0 : Draws :=
  { ramD := 0, storageD := 1, colorD := 2, vendorD := 7, categoryD := 205,
    phraseD := 1, priceU := 10, ratingU := 3 }

/-- The concrete product it generates. -/
def p0 : Product := (generate_product_json 0 d0).1

/-- Two partitions: one succeeded with a single record, one failed. -/
def parts0 : List (Option (List Product)) := [some [p0], none]

/-- A small concrete tally result. -/
def r0 : PartResult := { file_index := 1, category_counts := [(0, 1)], vendor_counts := [(2, 3)] }

/-- A dict whose `executionStats` value is not itself a dict: the inner
`.get` then raises `AttributeError`. -/
def cexExplain : List (List Char × PyVal) := [(str "executionStats", .vint 5)]

/-- A dict carrying an empty top-level shards list. -/
def cexShardsEmpty : PyVal := .vdict [(str "shards", .vlist [])]

/-- One full Initializer-plus-Reconciler run as a transformer of the
on-disk catalog state: the Initializer rewrites the base catalog from
scratch (so the prior state is ignored), then the Reconciler patches the
counts from the given results. -/
def initializer_reconciler_run (results : List (Option PartResult)) (wd : ℕ → ℕ)
    (_state : List Category × List Vendor) : List Category × List Vendor :=
  ((update_base_data_counts results (generate_base_data wd).1 (generate_base_data wd).2).1,
   (update_base_data_counts results (generate_base_data wd).1 (generate_base_data wd).2).2.1)

/-! ## Lemmas: partition id ranges -/

theorem partitionProducts_map_product_id (start : ℕ) (rnd : ℕ → Draws) :
    (partitionProducts start rnd).map Product.product_id = partitionIds start := by
  simp only [partitionProducts, partitionIds, List.map_map]
  rfl

theorem mkTasks_flatten (k : ℕ) : ∀ i cur : ℕ,
    ((mkTasks k i cur).map (fun t => partitionIds t.2)).flatten
      = (List.range (k * PRODUCTS_PER_FILE)).map (fun x => cur + x) := by
  induction k with
  | zero => intro i cur; simp [mkTasks]
  | succ k ih =>
    intro i cur
    rw [mkTasks]
    simp only [List.map_cons, List.flatten_cons, ih (i + 1) (cur + PRODUCTS_PER_FILE)]
    rw [Nat.succ_mul, Nat.add_comm (k * PRODUCTS_PER_FILE) PRODUCTS_PER_FILE, List.range_add,
      List.map_append, List.map_map]
    congr 1
    apply List.map_congr_left
    intro a _
    simp only [Function.comp_apply]
    omega

/-- C1: each partition `i` (1-based) starts at `(i-1)*PRODUCTS_PER_FILE`;
the partitions' id ranges concatenate to exactly `[0, TOTAL_PRODUCTS)` with
no duplicates; and a partition's records carry exactly its id range, in
order. -/
theorem C1_partition_ids_cover_range :
    (∀ t ∈ run_interleaved_generation_tasks, t.2 = (t.1 - 1) * PRODUCTS_PER_FILE)
    ∧ ((run_interleaved_generation_tasks.map (fun t => partitionIds t.2)).flatten
        = List.range TOTAL_PRODUCTS)
    ∧ ((run_interleaved_generation_tasks.map (fun t => partitionIds t.2)).flatten).Nodup
    ∧ (∀ start rnd, (partitionProducts start rnd).map Product.product_id = partitionIds start) := by
  have hflat : (run_interleaved_generation_tasks.map (fun t => partitionIds t.2)).flatten
      = List.range TOTAL_PRODUCTS := by
    rw [run_interleaved_generation_tasks, mkTasks_flatten]
    have h1 : SPLIT_PARTS * PRODUCTS_PER_FILE = TOTAL_PRODUCTS := Nat.mul_comm _ _
    rw [h1]
    calc (List.range TOTAL_PRODUCTS).map (fun x => 0 + x)
        = (List.range TOTAL_PRODUCTS).map id :=
          List.map_congr_left (fun a _ => Nat.zero_add a)
      _ = List.range TOTAL_PRODUCTS := List.map_id _
  refine ⟨by decide, hflat, ?_, partitionProducts_map_product_id⟩
  rw [hflat]
  exact List.nodup_range TOTAL_PRODUCTS

/-! ## Lemmas: association-list counters -/

theorem dget_mapInc (m : List (ℕ × ℕ)) (k a j : ℕ) :
    dget (m.map (fun p => if p.1 = k then (p.1, p.2 + a) else p)) j
      = if j = k then (dget m j).map (· + a) else dget m j := by
  induction m with
  | nil => simp [dget]
  | cons p rest ih =>
    obtain ⟨k2, v⟩ := p
    simp only [List.map_cons]
    have hhead : ((if (k2, v).1 = k then ((k2, v).1, (k2, v).2 + a) else (k2, v)) : ℕ × ℕ)
        = if k2 = k then (k2, v + a) else (k2, v) := rfl
    rw [hhead]
    by_cases hk : k2 = k
    · rw [if_pos hk]
      by_cases hj : j = k2
      · have hjk : j = k := hj.trans hk
        simp [dget, hj, hjk, hk]
      · have hjk : j = k → False := fun h => hj (h.trans hk.symm)
        simp [dget, if_neg hj, ih, if_neg hjk]
    · rw [if_neg hk]
      by_cases hj : j = k2
      · have hjk : j = k → False := fun h => hk (hj.symm.trans h)
        simp [dget, hj, hjk, hk]
      · simp only [dget, if_neg hj, ih]

theorem dget_append (m m2 : List (ℕ × ℕ)) (j : ℕ) :
    dget (m ++ m2) j = match dget m j with | some v => some v | none => dget m2 j := by
  induction m with
  | nil => simp [dget]
  | cons p rest ih =>
    obtain ⟨k2, v⟩ := p
    by_cases hj : j = k2
    · simp [dget, hj]
    · simpa [dget, hj] using ih

theorem dgetD_bumpBy (m : List (ℕ × ℕ)) (k a j : ℕ) :
    dgetD (bumpBy m k a) j = dgetD m j + (if j = k then a else 0) := by
  unfold bumpBy
  by_cases hs : (dget m k).isSome
  · rw [if_pos hs]
    unfold dgetD
    rw [dget_mapInc]
    by_cases hj : j = k
    · subst hj
      obtain ⟨v, hv⟩ := Option.isSome_iff_exists.mp hs
      simp [hv]
    · simp [hj]
  · rw [if_neg hs]
    unfold dgetD
    rw [dget_append]
    by_cases hj : j = k
    · subst hj
      have hnone : dget m j = none := Option.not_isSome_iff_eq_none.mp hs
      simp [hnone, dget]
    · cases hd : dget m j with
      | some v => simp [hd, hj]
      | none => simp [hd, dget, hj]

theorem dgetD_addTally (t : List (ℕ × ℕ)) : ∀ (m : List (ℕ × ℕ)) (j : ℕ),
    dgetD (addTally m t) j = dgetD m j + tallyVal t j := by
  induction t with
  | nil => intro m j; simp [addTally, tallyVal]
  | cons p rest ih =>
    intro m j
    have hstep : addTally m (p :: rest) = addTally (bumpBy m p.1 p.2) rest := rfl
    rw [hstep, ih, dgetD_bumpBy]
    simp only [tallyVal, List.map_cons, List.sum_cons]
    by_cases hj : j = p.1
    · subst hj; simp [tallyVal]; omega
    · have : ¬ p.1 = j := fun h => hj (h ▸ rfl)
      simp [hj, this, tallyVal]

theorem dgetD_foldl_addTally (ts : List (List (ℕ × ℕ))) : ∀ (m : List (ℕ × ℕ)) (j : ℕ),
    dgetD (ts.foldl addTally m) j = dgetD m j + (ts.map (fun t => tallyVal t j)).sum := by
  induction ts with
  | nil => intro m j; simp
  | cons t rest ih =>
    intro m j
    simp only [List.foldl_cons, List.map_cons, List.sum_cons, ih, dgetD_addTally]
    omega

theorem dgetD_aggTallies (ts : List (List (ℕ × ℕ))) (j : ℕ) :
    dgetD (aggTallies ts) j = (ts.map (fun t => tallyVal t j)).sum := by
  have h := dgetD_foldl_addTally ts [] j
  simpa [aggTallies, dgetD, dget] using h

theorem dgetD_foldl_bump (ids : List ℕ) : ∀ (m : List (ℕ × ℕ)) (j : ℕ),
    dgetD (ids.foldl (fun m k => bumpBy m k 1) m) j = dgetD m j + ids.count j := by
  induction ids with
  | nil => intro m j; simp
  | cons a t ih =>
    intro m j
    simp only [List.foldl_cons, ih, dgetD_bumpBy, List.count_cons, beq_iff_eq]
    by_cases hj : j = a
    · have ha : a = j := hj.symm
      simp only [if_pos hj, if_pos ha]; omega
    · have ha : ¬ a = j := fun he => hj he.symm
      simp only [if_neg hj, if_neg ha]; omega

theorem dgetD_tallyOf (ids : List ℕ) (j : ℕ) :
    dgetD (tallyOf ids) j = ids.count j := by
  have h := dgetD_foldl_bump ids [] j
  simpa [tallyOf, dgetD, dget] using h

theorem dget_eq_none_iff (m : List (ℕ × ℕ)) (k : ℕ) :
    dget m k = none ↔ k ∉ keysOf m := by
  induction m with
  | nil => simp [dget, keysOf]
  | cons p rest ih =>
    obtain ⟨k2, v⟩ := p
    by_cases hj : k = k2
    · subst hj; simp [dget, keysOf]
    · simp [dget, hj, keysOf] at ih ⊢
      exact ih

theorem keysOf_bumpBy (m : List (ℕ × ℕ)) (k a : ℕ) :
    ∀ j ∈ keysOf (bumpBy m k a), j ∈ keysOf m ∨ j = k := by
  intro j hj
  unfold bumpBy at hj
  by_cases hs : (dget m k).isSome
  · rw [if_pos hs] at hj
    left
    simp only [keysOf, List.map_map, List.mem_map] at hj ⊢
    obtain ⟨p, hp, hval⟩ := hj
    refine ⟨p, hp, ?_⟩
    rw [← hval]
    by_cases h1 : p.1 = k <;> simp [Function.comp, h1]
  · rw [if_neg hs] at hj
    simp only [keysOf, List.map_append, List.mem_append, List.map_cons, List.mem_singleton] at hj
    rcases hj with h | h
    · exact Or.inl h
    · simp at h; exact Or.inr h

theorem keysOf_foldl_bump (ids : List ℕ) : ∀ (m : List (ℕ × ℕ)) (j : ℕ),
    j ∈ keysOf (ids.foldl (fun m k => bumpBy m k 1) m) → j ∈ keysOf m ∨ j ∈ ids := by
  induction ids with
  | nil => intro m j h; exact Or.inl h
  | cons a t ih =>
    intro m j h
    rcases ih (bumpBy m a 1) j h with h2 | h2
    · rcases keysOf_bumpBy m a 1 j h2 with h3 | h3
      · exact Or.inl h3
      · exact Or.inr (by simp [h3])
    · exact Or.inr (by simp [h2])

theorem keysOf_tallyOf (ids : List ℕ) (j : ℕ) (h : j ∈ keysOf (tallyOf ids)) : j ∈ ids := by
  rcases keysOf_foldl_bump ids [] j h with h2 | h2
  · simp [keysOf] at h2
  · exact h2

theorem nodup_keys_bumpBy (m : List (ℕ × ℕ)) (k a : ℕ) (h : NoDupKeys m) :
    NoDupKeys (bumpBy m k a) := by
  unfold bumpBy
  by_cases hs : (dget m k).isSome
  · rw [if_pos hs]
    unfold NoDupKeys at h ⊢
    have : (m.map (fun p => if p.1 = k then (p.1, p.2 + a) else p)).map Prod.fst
        = m.map Prod.fst := by
      rw [List.map_map]
      apply List.map_congr_left
      intro p _
      by_cases h1 : p.1 = k <;> simp [Function.comp, h1]
    rw [this]; exact h
  · rw [if_neg hs]
    unfold NoDupKeys at h ⊢
    rw [List.map_append]
    refine List.Nodup.append h (List.nodup_singleton k) ?_
    intro x hx hx2
    simp at hx2
    subst hx2
    have hnone : dget m x = none := Option.not_isSome_iff_eq_none.mp hs
    exact (dget_eq_none_iff m x).mp hnone hx

theorem nodup_keys_foldl_bump (ids : List ℕ) : ∀ (m : List (ℕ × ℕ)),
    NoDupKeys m → NoDupKeys (ids.foldl (fun m k => bumpBy m k 1) m) := by
  induction ids with
  | nil => intro m h; exact h
  | cons a t ih => intro m h; exact ih _ (nodup_keys_bumpBy m a 1 h)

theorem nodup_keys_tallyOf (ids : List ℕ) : NoDupKeys (tallyOf ids) :=
  nodup_keys_foldl_bump ids [] (by simp [NoDupKeys])

theorem tallyVal_of_not_mem (t : List (ℕ × ℕ)) (j : ℕ) (h : j ∉ keysOf t) :
    tallyVal t j = 0 := by
  induction t with
  | nil => rfl
  | cons p rest ih =>
    simp only [keysOf, List.map_cons, List.mem_cons] at h
    push_neg at h
    simp only [tallyVal, List.map_cons, List.sum_cons]
    have hne : ¬ p.1 = j := fun he => h.1 (he ▸ rfl)
    rw [if_neg hne]
    simpa [tallyVal] using ih (by simpa [keysOf] using h.2)

theorem tallyVal_eq_dgetD (t : List (ℕ × ℕ)) (j : ℕ) (h : NoDupKeys t) :
    tallyVal t j = dgetD t j := by
  induction t with
  | nil => rfl
  | cons p rest ih =>
    obtain ⟨k2, v⟩ := p
    unfold NoDupKeys at h
    simp only [List.map_cons, List.nodup_cons] at h
    by_cases hj : j = k2
    · subst hj
      have h0 : tallyVal rest j = 0 :=
        tallyVal_of_not_mem rest j (by simpa [keysOf] using h.1)
      have hhd : tallyVal ((j, v) :: rest) j = v + tallyVal rest j := by
        simp [tallyVal]
      rw [hhd, h0]
      simp [dgetD, dget]
    · have hne : ¬ k2 = j := fun he => hj (he ▸ rfl)
      have hhd : tallyVal ((k2, v) :: rest) j = tallyVal rest j := by
        simp [tallyVal, hne]
      rw [hhd, ih h.2]
      simp [dgetD, dget, hj]

theorem tallyVal_tallyOf (ids : List ℕ) (j : ℕ) :
    tallyVal (tallyOf ids) j = ids.count j := by
  rw [tallyVal_eq_dgetD _ _ (nodup_keys_tallyOf ids), dgetD_tallyOf]

/-! ## Lemmas: sums over the id range -/

theorem listSumRange (f : ℕ → ℕ) (n : ℕ) :
    ((List.range n).map f).sum = ∑ i ∈ Finset.range n, f i := by
  induction n with
  | zero => simp
  | succ n ih => rw [List.range_succ, Finset.sum_range_succ, List.map_append, List.sum_append, ih]; simp

theorem sum_count_range (ids : List ℕ) (N : ℕ) (h : ∀ x ∈ ids, x < N) :
    ∑ i ∈ Finset.range N, ids.count i = ids.length := by
  induction ids with
  | nil => simp
  | cons a t ih =>
    have ha : a < N := h a (by simp)
    have ht : ∀ x ∈ t, x < N := fun x hx => h x (by simp [hx])
    simp only [List.count_cons, List.length_cons, beq_iff_eq]
    rw [Finset.sum_add_distrib, ih ht]
    have hsum : ∑ x ∈ Finset.range N, (if a = x then (1:ℕ) else 0) = 1 := by
      rw [Finset.sum_ite_eq (Finset.range N) a (fun _ => (1:ℕ))]
      simp [Finset.mem_range.mpr ha]
    rw [hsum]

theorem sum_range_listsum {α : Type} (N : ℕ) (ts : List α) (g : α → ℕ → ℕ) :
    ∑ i ∈ Finset.range N, (ts.map (fun t => g t i)).sum
      = (ts.map (fun t => ∑ i ∈ Finset.range N, g t i)).sum := by
  induction ts with
  | nil => simp
  | cons t rest ih => simp [Finset.sum_add_distrib, ih]

/-- The global total at key `i` of the merged per-list tallies is the total
number of elements, provided every element is below `N`. -/
theorem conservation_core (L : List (List ℕ)) (N : ℕ) (h : ∀ l ∈ L, ∀ x ∈ l, x < N) :
    ∑ i ∈ Finset.range N, dgetD (aggTallies (L.map tallyOf)) i = (L.map List.length).sum := by
  have h1 : ∀ i, dgetD (aggTallies (L.map tallyOf)) i = (L.map (fun l => l.count i)).sum := by
    intro i
    rw [dgetD_aggTallies, List.map_map]
    apply congrArg List.sum
    apply List.map_congr_left
    intro l _
    exact tallyVal_tallyOf l i
  calc ∑ i ∈ Finset.range N, dgetD (aggTallies (L.map tallyOf)) i
      = ∑ i ∈ Finset.range N, (L.map (fun l => l.count i)).sum :=
        Finset.sum_congr rfl (fun i _ => h1 i)
    _ = (L.map (fun l => ∑ i ∈ Finset.range N, l.count i)).sum := sum_range_listsum N L _
    _ = (L.map List.length).sum := by
        apply congrArg List.sum
        apply List.map_congr_left
        intro l hl
        exact sum_count_range l N (h l hl)

/-- A key that appears in no contributing list gets total 0. -/
theorem agg_absent (L : List (List ℕ)) (i : ℕ) (h : ∀ l ∈ L, i ∉ l) :
    dgetD (aggTallies (L.map tallyOf)) i = 0 := by
  rw [dgetD_aggTallies, List.map_map]
  apply List.sum_eq_zero
  intro x hx
  simp only [List.mem_map] at hx
  obtain ⟨l, hl, hval⟩ := hx
  rw [← hval]
  have : tallyVal (tallyOf l) i = 0 := by
    rw [tallyVal_tallyOf]
    exact List.count_eq_zero.mpr (h l hl)
  exact this

/-! ## Lemmas: the reconciler's output, componentwise -/

theorem update_cats_def (R : List (Option PartResult)) (cats : List Category)
    (vens : List Vendor) :
    (update_base_data_counts R cats vens).1 = cats.map (fun cat =>
      { cat with
        products_count :=
          dgetD (aggTallies ((R.filterMap id).map PartResult.category_counts)) cat._id }) := rfl

theorem update_vens_def (R : List (Option PartResult)) (cats : List Category)
    (vens : List Vendor) :
    (update_base_data_counts R cats vens).2.1 = vens.map (fun v =>
      { v with
        products_count :=
          dgetD (aggTallies ((R.filterMap id).map PartResult.vendor_counts)) v._id }) := rfl

theorem update_log_def (R : List (Option PartResult)) (cats : List Category)
    (vens : List Vendor) :
    (update_base_data_counts R cats vens).2.2
      = ['\n' :: str "--- Base Data Counts Updated Successfully ---"] := rfl

theorem filterMap_partsResults (parts : List (Option (List Product))) :
    (partsResults parts).filterMap id = (parts.filterMap id).map (fun ps =>
      PartResult.mk 0 (tallyOf (ps.map Product.category_id))
        (tallyOf (ps.map Product.vendor_id))) := by
  induction parts with
  | nil => rfl
  | cons o rest ih =>
    cases o with
    | none => simpa [partsResults, List.filterMap_cons] using ih
    | some ps => simpa [partsResults, List.filterMap_cons] using ih

theorem sumCounts_map_update (A : List (ℕ × ℕ)) (wd : ℕ → ℕ) :
    sumCounts (((generate_base_data wd).1).map (fun cat =>
        { cat with products_count := dgetD A cat._id }))
      = ∑ i ∈ Finset.range NUM_CATEGORIES, dgetD A i := by
  have hbase : (generate_base_data wd).1 = (List.range NUM_CATEGORIES).map (fun i =>
      ({ _id := i
         label := str "Category Label " ++ natToDigits i ++ str " - " ++ pychoice WORDS [] (wd i)
         products_count := 0 } : Category)) := rfl
  rw [hbase]
  unfold sumCounts
  simp only [List.map_map]
  rw [listSumRange]
  exact Finset.sum_congr rfl (fun i _ => rfl)

theorem sumVCounts_map_update (A : List (ℕ × ℕ)) (wd : ℕ → ℕ) :
    sumVCounts (((generate_base_data wd).2).map (fun v =>
        { v with products_count := dgetD A v._id }))
      = ∑ i ∈ Finset.range VENDOR_COUNT, dgetD A i := by
  have hbase : (generate_base_data wd).2 = (List.range VENDOR_COUNT).map (fun i =>
      ({ _id := i
         full_name := str "Vendor Company " ++ natToDigits i
         products_count := 0 } : Vendor)) := rfl
  rw [hbase]
  unfold sumVCounts
  simp only [List.map_map]
  rw [listSumRange]
  exact Finset.sum_congr rfl (fun i _ => rfl)

theorem filterMap_allSome_length (parts : List (Option (List Product)))
    (h : ∀ o ∈ parts, o.isSome) : (parts.filterMap id).length = parts.length := by
  induction parts with
  | nil => rfl
  | cons o rest ih =>
    cases o with
    | none => exact absurd (h none (by simp)) (by simp)
    | some ps =>
      simp only [List.filterMap_cons, id, List.length_cons]
      rw [ih (fun o ho => h o (by simp [ho]))]

theorem sum_map_length_const (l : List (List Product)) (c : ℕ)
    (h : ∀ x ∈ l, x.length = c) : (l.map List.length).sum = l.length * c := by
  induction l with
  | nil => simp
  | cons x rest ih =>
    simp only [List.map_cons, List.sum_cons, List.length_cons, h x (by simp)]
    rw [ih (fun y hy => h y (by simp [hy])), Nat.succ_mul, Nat.add_comm]

/-! ## Claim C2 -/

theorem mem_of_mem_filterMap_id {α : Type} {x : α} {l : List (Option α)}
    (h : x ∈ l.filterMap id) : some x ∈ l := by
  simp only [List.mem_filterMap, id] at h
  obtain ⟨a, ha, hval⟩ := h
  rw [hval] at ha
  exact ha

/-- C2: after the reconciler runs, the categories' final `products_count`
values sum to the number of records produced by the succeeded partitions
(and likewise for vendors); an id absent from every contributing partition
ends with count 0; and when all `SPLIT_PARTS` partitions succeed with
`PRODUCTS_PER_FILE` records each, the total is `TOTAL_PRODUCTS`. -/
theorem C2_count_conservation (parts : List (Option (List Product))) (wd : ℕ → ℕ)
    (hcat : ∀ o ∈ parts, ∀ p ∈ o.getD [], p.category_id < NUM_CATEGORIES)
    (hven : ∀ o ∈ parts, ∀ p ∈ o.getD [], p.vendor_id < VENDOR_COUNT) :
    sumCounts (update_base_data_counts (partsResults parts)
        (generate_base_data wd).1 (generate_base_data wd).2).1
      = ((parts.filterMap id).map List.length).sum
    ∧ sumVCounts (update_base_data_counts (partsResults parts)
        (generate_base_data wd).1 (generate_base_data wd).2).2.1
      = ((parts.filterMap id).map List.length).sum
    ∧ (∀ c ∈ (update_base_data_counts (partsResults parts)
        (generate_base_data wd).1 (generate_base_data wd).2).1,
        (∀ l ∈ parts.filterMap id, c._id ∉ l.map Product.category_id) →
          c.products_count = 0)
    ∧ (∀ vn ∈ (update_base_data_counts (partsResults parts)
        (generate_base_data wd).1 (generate_base_data wd).2).2.1,
        (∀ l ∈ parts.filterMap id, vn._id ∉ l.map Product.vendor_id) →
          vn.products_count = 0)
    ∧ ((parts.length = SPLIT_PARTS
          ∧ ∀ o ∈ parts, (o.getD []).length = PRODUCTS_PER_FILE ∧ o.isSome)
        → ((parts.filterMap id).map List.length).sum = TOTAL_PRODUCTS) := by
  have hAc : ((partsResults parts).filterMap id).map PartResult.category_counts
      = ((parts.filterMap id).map (fun ps => ps.map Product.category_id)).map tallyOf := by
    rw [filterMap_partsResults]
    simp only [List.map_map]
    rfl
  have hAv : ((partsResults parts).filterMap id).map PartResult.vendor_counts
      = ((parts.filterMap id).map (fun ps => ps.map Product.vendor_id)).map tallyOf := by
    rw [filterMap_partsResults]
    simp only [List.map_map]
    rfl
  have hboundc : ∀ l ∈ (parts.filterMap id).map (fun ps => ps.map Product.category_id),
      ∀ x ∈ l, x < NUM_CATEGORIES := by
    intro l hl x hx
    simp only [List.mem_map] at hl
    obtain ⟨ps, hps, hval⟩ := hl
    rw [← hval] at hx
    simp only [List.mem_map] at hx
    obtain ⟨p, hp, hpx⟩ := hx
    rw [← hpx]
    exact hcat (some ps) (mem_of_mem_filterMap_id hps) p hp
  have hboundv : ∀ l ∈ (parts.filterMap id).map (fun ps => ps.map Product.vendor_id),
      ∀ x ∈ l, x < VENDOR_COUNT := by
    intro l hl x hx
    simp only [List.mem_map] at hl
    obtain ⟨ps, hps, hval⟩ := hl
    rw [← hval] at hx
    simp only [List.mem_map] at hx
    obtain ⟨p, hp, hpx⟩ := hx
    rw [← hpx]
    exact hven (some ps) (mem_of_mem_filterMap_id hps) p hp
  have hlen : (((parts.filterMap id).map (fun ps => ps.map Product.category_id)).map
      List.length).sum = ((parts.filterMap id).map List.length).sum := by
    simp only [List.map_map]
    apply congrArg List.sum
    apply List.map_congr_left
    intro ps _
    simp
  have hlenv : (((parts.filterMap id).map (fun ps => ps.map Product.vendor_id)).map
      List.length).sum = ((parts.filterMap id).map List.length).sum := by
    simp only [List.map_map]
    apply congrArg List.sum
    apply List.map_congr_left
    intro ps _
    simp
  refine ⟨?_, ?_, ?_, ?_, ?_⟩
  · rw [update_cats_def, hAc, sumCounts_map_update,
      conservation_core _ _ hboundc, hlen]
  · rw [update_vens_def, hAv, sumVCounts_map_update,
      conservation_core _ _ hboundv, hlenv]
  · intro c hc habsent
    rw [update_cats_def] at hc
    simp only [List.mem_map] at hc
    obtain ⟨c0, _, hval⟩ := hc
    rw [← hval]
    show dgetD (aggTallies ((((partsResults parts)).filterMap id).map
      PartResult.category_counts)) c0._id = 0
    rw [hAc]
    apply agg_absent
    intro l hl
    simp only [List.mem_map] at hl
    obtain ⟨ps, hps, hlval⟩ := hl
    rw [← hlval]
    have : c._id = c0._id := by rw [← hval]
    rw [← this]
    exact habsent ps hps
  · intro vn hv habsent
    rw [update_vens_def] at hv
    simp only [List.mem_map] at hv
    obtain ⟨v0, _, hval⟩ := hv
    rw [← hval]
    show dgetD (aggTallies ((((partsResults parts)).filterMap id).map
      PartResult.vendor_counts)) v0._id = 0
    rw [hAv]
    apply agg_absent
    intro l hl
    simp only [List.mem_map] at hl
    obtain ⟨ps, hps, hlval⟩ := hl
    rw [← hlval]
    have : vn._id = v0._id := by rw [← hval]
    rw [← this]
    exact habsent ps hps
  · rintro ⟨hlen4, hall⟩
    have hs : ∀ o ∈ parts, o.isSome := fun o ho => (hall o ho).2
    have hfl : (parts.filterMap id).length = parts.length :=
      filterMap_allSome_length parts hs
    have hlens : ∀ ps ∈ parts.filterMap id, ps.length = PRODUCTS_PER_FILE := by
      intro ps hps
      have := (hall (some ps) (mem_of_mem_filterMap_id hps)).1
      simpa using this
    rw [sum_map_length_const _ _ hlens, hfl, hlen4]
    exact Nat.mul_comm SPLIT_PARTS PRODUCTS_PER_FILE

/-- Witness for C2 at a concrete input: one succeeded partition with a
single record and one failed partition. -/
theorem C2_count_conservation_witness :
    ((∀ o ∈ parts0, ∀ p ∈ o.getD [], p.category_id < NUM_CATEGORIES)
      ∧ (∀ o ∈ parts0, ∀ p ∈ o.getD [], p.vendor_id < VENDOR_COUNT))
    ∧ (sumCounts (update_base_data_counts (partsResults parts0)
        (generate_base_data (fun _ => 0)).1 (generate_base_data (fun _ => 0)).2).1
      = ((parts0.filterMap id).map List.length).sum
    ∧ sumVCounts (update_base_data_counts (partsResults parts0)
        (generate_base_data (fun _ => 0)).1 (generate_base_data (fun _ => 0)).2).2.1
      = ((parts0.filterMap id).map List.length).sum
    ∧ (∀ c ∈ (update_base_data_counts (partsResults parts0)
        (generate_base_data (fun _ => 0)).1 (generate_base_data (fun _ => 0)).2).1,
        (∀ l ∈ parts0.filterMap id, c._id ∉ l.map Product.category_id) →
          c.products_count = 0)
    ∧ (∀ vn ∈ (update_base_data_counts (partsResults parts0)
        (generate_base_data (fun _ => 0)).1 (generate_base_data (fun _ => 0)).2).2.1,
        (∀ l ∈ parts0.filterMap id, vn._id ∉ l.map Product.vendor_id) →
          vn.products_count = 0)
    ∧ ((parts0.length = SPLIT_PARTS
          ∧ ∀ o ∈ parts0, (o.getD []).length = PRODUCTS_PER_FILE ∧ o.isSome)
        → ((parts0.filterMap id).map List.length).sum = TOTAL_PRODUCTS)) :=
  ⟨⟨by decide, by decide⟩,
    C2_count_conservation parts0 (fun _ => 0) (by decide) (by decide)⟩

/-! ## Claims C6, C7, C8, C9 -/

/-- C6: a partition hit by an I/O error reports no tally at all (never a
partial one) while logging; a successful partition reports the full tally
of exactly its own records (no cross-partition state exists); and the
reconciler's output over a result list containing a failed partition
equals its output with that failure removed, so the failed partition's
counts are excluded rather than partially included. -/
theorem C6_failure_isolation :
    (∀ idx start rnd e,
      (generate_interleaved_products_for_file idx start rnd (some e)).1 = none)
    ∧ (∀ idx start rnd,
      (generate_interleaved_products_for_file idx start rnd none).1
        = some (PartResult.mk idx
            (tallyOf ((partitionProducts start rnd).map Product.category_id))
            (tallyOf ((partitionProducts start rnd).map Product.vendor_id))))
    ∧ (∀ results1 results2 cats vens,
      update_base_data_counts (results1 ++ none :: results2) cats vens
        = update_base_data_counts (results1 ++ results2) cats vens) := by
  refine ⟨fun _ _ _ _ => rfl, fun _ _ _ => rfl, ?_⟩
  intro r1 r2 cats vens
  have hf : (r1 ++ none :: r2).filterMap id = (r1 ++ r2).filterMap id := by
    simp [List.filterMap_append, List.filterMap_cons]
  unfold update_base_data_counts
  rw [hf]

/-- C7: the reconciler is order-independent — permuting the per-partition
result list leaves the final catalogs (and log) unchanged. -/
theorem C7_aggregation_order_independent (results results' : List (Option PartResult))
    (h : results.Perm results') (cats : List Category) (vens : List Vendor) :
    update_base_data_counts results cats vens
      = update_base_data_counts results' cats vens := by
  have hperm : (results.filterMap id).Perm (results'.filterMap id) := h.filterMap id
  have hc : ∀ j, dgetD (aggTallies ((results.filterMap id).map PartResult.category_counts)) j
      = dgetD (aggTallies ((results'.filterMap id).map PartResult.category_counts)) j := by
    intro j
    rw [dgetD_aggTallies, dgetD_aggTallies]
    exact List.Perm.sum_eq ((hperm.map _).map _)
  have hv : ∀ j, dgetD (aggTallies ((results.filterMap id).map PartResult.vendor_counts)) j
      = dgetD (aggTallies ((results'.filterMap id).map PartResult.vendor_counts)) j := by
    intro j
    rw [dgetD_aggTallies, dgetD_aggTallies]
    exact List.Perm.sum_eq ((hperm.map _).map _)
  have e1 : (update_base_data_counts results cats vens).1
      = (update_base_data_counts results' cats vens).1 := by
    rw [update_cats_def, update_cats_def]
    exact List.map_congr_left (fun c _ => by rw [hc c._id])
  have e2 : (update_base_data_counts results cats vens).2.1
      = (update_base_data_counts results' cats vens).2.1 := by
    rw [update_vens_def, update_vens_def]
    exact List.map_congr_left (fun v _ => by rw [hv v._id])
  have e3 : (update_base_data_counts results cats vens).2.2
      = (update_base_data_counts results' cats vens).2.2 := by
    rw [update_log_def, update_log_def]
  exact Prod.ext e1 (Prod.ext e2 e3)

/-- Witness for C7: swapping a succeeded and a failed result leaves the
reconciler's output unchanged. -/
theorem C7_aggregation_order_independent_witness :
    update_base_data_counts [some r0, none] [] []
      = update_base_data_counts [none, some r0] [] [] :=
  C7_aggregation_order_independent [some r0, none] [none, some r0]
    (List.Perm.swap none (some r0) []) [] []

/-- C8: the reconciler assigns (rather than accumulates) each entity's
`products_count`, so applying it again to its own output changes nothing,
and a full Initializer-plus-Reconciler re-run on the same tallies and
entropy yields the identical catalog state. -/
theorem C8_idempotent_rerun (results : List (Option PartResult)) (wd : ℕ → ℕ) :
    (∀ cats vens,
      update_base_data_counts results
          (update_base_data_counts results cats vens).1
          (update_base_data_counts results cats vens).2.1
        = update_base_data_counts results cats vens)
    ∧ (∀ s : List Category × List Vendor,
      initializer_reconciler_run results wd (initializer_reconciler_run results wd s)
        = initializer_reconciler_run results wd s) := by
  constructor
  · intro cats vens
    have e1 : (update_base_data_counts results
        (update_base_data_counts results cats vens).1
        (update_base_data_counts results cats vens).2.1).1
        = (update_base_data_counts results cats vens).1 := by
      rw [update_cats_def, update_cats_def, List.map_map]
      exact List.map_congr_left (fun c _ => rfl)
    have e2 : (update_base_data_counts results
        (update_base_data_counts results cats vens).1
        (update_base_data_counts results cats vens).2.1).2.1
        = (update_base_data_counts results cats vens).2.1 := by
      rw [update_vens_def, update_vens_def, List.map_map]
      exact List.map_congr_left (fun v _ => rfl)
    exact Prod.ext e1 (Prod.ext e2 rfl)
  · intro s
    rfl

/-- C9 counterexample: with one failed partition in the input, the
reconciler's log output is exactly the fixed success banner — identical to
the log of an all-success run — so it names neither the contributing nor
the excluded partitions. -/
theorem C9_counterexample :
    (update_base_data_counts [some r0, none] [] []).2.2
      = (update_base_data_counts [some r0] [] []).2.2
    ∧ (update_base_data_counts [some r0, none] [] []).2.2
      = ['\n' :: str "--- Base Data Counts Updated Successfully ---"] :=
  ⟨rfl, rfl⟩

/-- C9 (amended): the reconciler prints only the fixed success banner, for
every input; the only log line that names a failed partition is emitted by
the partition writer itself at failure time. -/
theorem C9_amended_reconciler_log :
    (∀ results cats vens, (update_base_data_counts results cats vens).2.2
        = ['\n' :: str "--- Base Data Counts Updated Successfully ---"])
    ∧ (∀ idx start rnd e, (generate_interleaved_products_for_file idx start rnd (some e)).2
        = [str "Error writing file " ++ natToDigits idx ++ str ": " ++ e]) :=
  ⟨fun _ _ _ => rfl, fun _ _ _ _ => rfl⟩

/-! ## Claim C10 -/

/-- C10 counterexample: `{'executionStats': 5}` is a dictionary with no
'shards' key at top level and no 'shards' key under
`executionStats.executionStages`, yet the function returns 0, not 1 (the
inner `.get` raises on the non-dict value); moreover
`{'shards': []}` returns 0 without any field access raising. -/
theorem C10_counterexample :
    (pyDictGet cexExplain (str "shards")).isNone = true
    ∧ count_shards_from_explain (.vdict cexExplain) = 0
    ∧ count_shards_from_explain (.vdict cexExplain) ≠ 1
    ∧ count_shards_from_explain cexShardsEmpty = 0
    ∧ count_shards_inner cexShardsEmpty = .ok 0 :=
  ⟨rfl, rfl, by decide, rfl, rfl⟩

/-- C10 (amended): the model of `count_shards_from_explain` is a total
function; it returns 1 for every dictionary whose `executionStats` value
(defaulting to an empty dict) is a dict, whose `executionStages` value
below it (same default) is a dict, with 'shards' present in neither that
dict nor the top level; and it returns 0 exactly when the body either
raises or finds a 'shards' container of length 0. -/
theorem C10_shard_count (v : PyVal) (l l2 l3 : List (List Char × PyVal))
    (h1 : (pyDictGet l (str "executionStats")).getD (.vdict []) = .vdict l2)
    (h2 : (pyDictGet l2 (str "executionStages")).getD (.vdict []) = .vdict l3)
    (h3 : (pyDictGet l3 (str "shards")).isNone = true)
    (h4 : (pyDictGet l (str "shards")).isNone = true) :
    count_shards_from_explain (.vdict l) = 1
    ∧ (count_shards_from_explain v = 0 ↔
        count_shards_inner v = .error () ∨ count_shards_inner v = .ok 0) := by
  constructor
  · have h3' : pyDictGet l3 (str "shards") = none := Option.isNone_iff_eq_none.mp h3
    have h4' : pyDictGet l (str "shards") = none := Option.isNone_iff_eq_none.mp h4
    have hinner : count_shards_inner (.vdict l) = .ok 1 := by
      unfold count_shards_inner
      simp [pyGetD, h1, h2, pyContains, h3', h4']
    unfold count_shards_from_explain
    rw [hinner]
  · cases h : count_shards_inner v with
    | ok n =>
      unfold count_shards_from_explain
      rw [h]
      simp
    | error u =>
      cases u
      unfold count_shards_from_explain
      rw [h]
      simp

/-- Witness for C10 at the empty dictionary. -/
theorem C10_shard_count_witness :
    count_shards_from_explain (.vdict []) = 1
    ∧ (count_shards_from_explain (.vdict []) = 0 ↔
        count_shards_inner (.vdict []) = .error ()
          ∨ count_shards_inner (.vdict []) = .ok 0) :=
  C10_shard_count (.vdict []) [] [] [] rfl rfl rfl rfl

/-! ## Lemmas: rounding bounds -/

theorem rndHalfEven_bounds (q : ℚ) : ⌊q⌋ ≤ rndHalfEven q ∧ rndHalfEven q ≤ ⌈q⌉ := by
  unfold rndHalfEven
  by_cases ht : 2 * (q - ⌊q⌋) = 1
  · rw [if_pos ht]
    have hlt : (⌊q⌋ : ℚ) < q := by linarith
    have h1 : ⌊q⌋ < ⌈q⌉ := by
      have h2 : (⌊q⌋ : ℚ) < (⌈q⌉ : ℚ) := lt_of_lt_of_le hlt (Int.le_ceil q)
      exact_mod_cast h2
    constructor
    · split <;> omega
    · split <;> omega
  · rw [if_neg ht, round_eq]
    constructor
    · exact Int.floor_le_floor (by linarith)
    · have h2 : ⌊q + 1 / 2⌋ < ⌈q⌉ + 1 := by
        apply Int.floor_lt.mpr
        push_cast
        have := Int.le_ceil q
        linarith
      omega

theorem pyround_bounds (q : ℚ) (d : ℕ) (lo hi : ℤ)
    (h1 : (lo : ℚ) ≤ q) (h2 : q ≤ hi) :
    (lo : ℚ) ≤ pyround q d ∧ pyround q d ≤ hi := by
  unfold pyround
  have hp : (0 : ℚ) < 10 ^ d := by positivity
  have hfl : lo * (10 ^ d : ℤ) ≤ ⌊q * 10 ^ d⌋ := by
    apply Int.le_floor.mpr
    push_cast
    exact mul_le_mul_of_nonneg_right h1 hp.le
  have hcl : ⌈q * 10 ^ d⌉ ≤ hi * (10 ^ d : ℤ) := by
    apply Int.ceil_le.mpr
    push_cast
    exact mul_le_mul_of_nonneg_right h2 hp.le
  obtain ⟨hb1, hb2⟩ := rndHalfEven_bounds (q * 10 ^ d)
  constructor
  · rw [le_div_iff₀ hp]
    have hz : lo * (10 ^ d : ℤ) ≤ rndHalfEven (q * 10 ^ d) := le_trans hfl hb1
    exact_mod_cast hz
  · rw [div_le_iff₀ hp]
    have hz : rndHalfEven (q * 10 ^ d) ≤ hi * (10 ^ d : ℤ) := le_trans hb2 hcl
    exact_mod_cast hz

theorem pychoice_mem {α : Type} (l : List α) (d0 : α) (i : ℕ) (h : l ≠ []) :
    pychoice l d0 i ∈ l := by
  unfold pychoice
  have hlen : 0 < l.length := List.length_pos.mpr h
  have hlt : i % l.length < l.length := Nat.mod_lt _ hlen
  rw [List.getD_eq_getElem l d0 hlt]
  exact List.getElem_mem hlt

/-! ## Claim C3 -/

/-- C3: every generated record has `category_id < NUM_CATEGORIES`,
`vendor_id < VENDOR_COUNT`, a price in [10, 5000] that is an exact
multiple of 1/100, a rating in [3, 5] that is an exact multiple of 1/10,
and exactly `ATTRIBUTES_PER_PRODUCT` attributes with slot 0 a RAM entry,
slot 1 a Storage entry and slot 2 a Color entry. -/
theorem C3_range_validity (gid : ℕ) (d : Draws)
    (hp1 : 10 ≤ d.priceU) (hp2 : d.priceU ≤ 5000)
    (hr1 : 3 ≤ d.ratingU) (hr2 : d.ratingU ≤ 5) :
    (generate_product_json gid d).1.category_id < NUM_CATEGORIES
    ∧ (generate_product_json gid d).1.vendor_id < VENDOR_COUNT
    ∧ 10 ≤ (generate_product_json gid d).1.price
    ∧ (generate_product_json gid d).1.price ≤ 5000
    ∧ (∃ m : ℤ, (generate_product_json gid d).1.price = (m : ℚ) / 100)
    ∧ 3 ≤ (generate_product_json gid d).1.rating
    ∧ (generate_product_json gid d).1.rating ≤ 5
    ∧ (∃ m : ℤ, (generate_product_json gid d).1.rating = (m : ℚ) / 10)
    ∧ (generate_product_json gid d).1.attributs.length = ATTRIBUTES_PER_PRODUCT
    ∧ (∃ n ∈ RAMS, (generate_product_json gid d).1.attributs.getD 0 ([], [])
        = (str "RAM", natToDigits n ++ str "GB"))
    ∧ (∃ n ∈ STORAGES, (generate_product_json gid d).1.attributs.getD 1 ([], [])
        = (str "Storage", natToDigits n ++ str "GB SSD"))
    ∧ (∃ c ∈ COLORS, (generate_product_json gid d).1.attributs.getD 2 ([], [])
        = (str "Color", c)) := by
  have hprice := pyround_bounds d.priceU 2 10 5000 (by exact_mod_cast hp1) (by exact_mod_cast hp2)
  have hrating := pyround_bounds d.ratingU 1 3 5 (by exact_mod_cast hr1) (by exact_mod_cast hr2)
  refine ⟨?_, ?_, ?_, ?_, ?_, ?_, ?_, ?_, ?_, ?_, ?_, ?_⟩
  · show d.categoryD % NUM_CATEGORIES < NUM_CATEGORIES
    exact Nat.mod_lt _ (by decide)
  · show d.vendorD % VENDOR_COUNT < VENDOR_COUNT
    exact Nat.mod_lt _ (by decide)
  · exact_mod_cast hprice.1
  · exact_mod_cast hprice.2
  · exact ⟨rndHalfEven (d.priceU * 10 ^ 2), by
      show pyround d.priceU 2 = _
      unfold pyround
      norm_num⟩
  · exact_mod_cast hrating.1
  · exact_mod_cast hrating.2
  · exact ⟨rndHalfEven (d.ratingU * 10 ^ 1), by
      show pyround d.ratingU 1 = _
      unfold pyround
      norm_num⟩
  · rfl
  · exact ⟨pychoice RAMS 0 d.ramD, pychoice_mem RAMS 0 d.ramD (by decide), rfl⟩
  · exact ⟨pychoice STORAGES 0 d.storageD, pychoice_mem STORAGES 0 d.storageD (by decide), rfl⟩
  · exact ⟨pychoice COLORS [] d.colorD, pychoice_mem COLORS [] d.colorD (by decide), rfl⟩

/-- Witness for C3 at a concrete entropy record. -/
theorem C3_range_validity_witness :
    (10 ≤ d0.priceU ∧ d0.priceU ≤ 5000 ∧ 3 ≤ d0.ratingU ∧ d0.ratingU ≤ 5)
    ∧ ((generate_product_json 0 d0).1.category_id < NUM_CATEGORIES
    ∧ (generate_product_json 0 d0).1.vendor_id < VENDOR_COUNT
    ∧ 10 ≤ (generate_product_json 0 d0).1.price
    ∧ (generate_product_json 0 d0).1.price ≤ 5000
    ∧ (∃ m : ℤ, (generate_product_json 0 d0).1.price = (m : ℚ) / 100)
    ∧ 3 ≤ (generate_product_json 0 d0).1.rating
    ∧ (generate_product_json 0 d0).1.rating ≤ 5
    ∧ (∃ m : ℤ, (generate_product_json 0 d0).1.rating = (m : ℚ) / 10)
    ∧ (generate_product_json 0 d0).1.attributs.length = ATTRIBUTES_PER_PRODUCT
    ∧ (∃ n ∈ RAMS, (generate_product_json 0 d0).1.attributs.getD 0 ([], [])
        = (str "RAM", natToDigits n ++ str "GB"))
    ∧ (∃ n ∈ STORAGES, (generate_product_json 0 d0).1.attributs.getD 1 ([], [])
        = (str "Storage", natToDigits n ++ str "GB SSD"))
    ∧ (∃ c ∈ COLORS, (generate_product_json 0 d0).1.attributs.getD 2 ([], [])
        = (str "Color", c))) :=
  ⟨⟨by decide, by decide, by decide, by decide⟩,
    C3_range_validity 0 d0 (by decide) (by decide) (by decide) (by decide)⟩

/-! ## Claim C4 -/

/-- C4 counterexample: the serialized record of a concrete generated
product has keys `name, price, rating, attributs, category_id, vendor_id,
product_id` — there is no field named `"attributes"` (the source spells
the key `"attributs"`). -/
theorem C4_counterexample :
    objKeys (productToJson p0)
      = [str "name", str "price", str "rating", str "attributs",
         str "category_id", str "vendor_id", str "product_id"]
    ∧ str "attributes" ∉ objKeys (productToJson p0) :=
  ⟨rfl, by decide⟩

/-- C4 (amended): every record built by the Random Record Builder has
exactly the fields `name, price, rating, attributs, category_id,
vendor_id, product_id`, in that order; the fixed-length attribute list is
stored under the (misspelled) key `"attributs"`. -/
theorem C4_record_fields (gid : ℕ) (d : Draws) :
    objKeys (productToJson ((generate_product_json gid d).1))
      = [str "name", str "price", str "rating", str "attributs",
         str "category_id", str "vendor_id", str "product_id"] := rfl

/-! ## Lemmas: characters and digit strings -/

theorem digitVal_digitChar : ∀ n < 10, digitVal (digitChar n) = n := by decide

theorem isDigitC_digitChar : ∀ n < 10, isDigitC (digitChar n) = true := by decide

theorem isDigitC_toNat (c : Char) (h : isDigitC c = true) :
    48 ≤ c.toNat ∧ c.toNat ≤ 57 := by
  simpa [isDigitC] using h

theorem wsChar_toNat (c : Char) (h : wsChar c = true) :
    c.toNat = 32 ∨ c.toNat = 10 ∨ c.toNat = 9 ∨ c.toNat = 13 := by
  simp only [wsChar, Bool.or_eq_true, decide_eq_true_eq] at h
  rcases h with ((h | h) | h) | h <;> subst h <;> simp

theorem not_ws_of_digit (c : Char) (h : isDigitC c = true) : wsChar c = false := by
  by_cases hw : wsChar c = true
  · exfalso
    have h1 := isDigitC_toNat c h
    have h2 := wsChar_toNat c hw
    omega
  · simpa using hw

theorem toNat_eq_of_eq {c d : Char} (h : c = d) : c.toNat = d.toNat := by rw [h]

theorem digit_ne_special (c : Char) (h : isDigitC c = true) :
    c ≠ qc ∧ c ≠ '[' ∧ c ≠ obr ∧ c ≠ ']' ∧ c ≠ ',' ∧ c ≠ '.' := by
  have h1 := isDigitC_toNat c h
  refine ⟨?_, ?_, ?_, ?_, ?_, ?_⟩ <;> intro he <;> have := toNat_eq_of_eq he <;>
    simp [qc, obr] at this <;> omega

theorem delimChar_not_digit (c : Char) (h : delimChar c = true) : isDigitC c = false := by
  by_cases hd : isDigitC c = true
  · exfalso
    have h1 := isDigitC_toNat c hd
    simp only [delimChar, Bool.or_eq_true, decide_eq_true_eq] at h
    rcases h with ((h | h) | h) | h
    · subst h; simp at h1
    · subst h; simp at h1
    · subst h; simp [cbr] at h1
    · have := wsChar_toNat c h; omega
  · simpa using hd

theorem delimChar_ne_dot (c : Char) (h : delimChar c = true) : c ≠ '.' := by
  intro he
  subst he
  simp [delimChar, cbr, wsChar] at h

/-! ## Lemmas: takeWhile, dropWhile, skipWs -/

theorem tw_app (p : Char → Bool) (A B : List Char) (h : ∀ a ∈ A, p a = true) :
    (A ++ B).takeWhile p = A ++ B.takeWhile p := by
  induction A with
  | nil => simp
  | cons a t ih =>
    have ha : p a = true := h a (by simp)
    have ih2 := ih (fun x hx => h x (by simp [hx]))
    simp [List.takeWhile_cons, ha, ih2]

theorem dw_app (p : Char → Bool) (A B : List Char) (h : ∀ a ∈ A, p a = true) :
    (A ++ B).dropWhile p = B.dropWhile p := by
  induction A with
  | nil => simp
  | cons a t ih =>
    have ha : p a = true := h a (by simp)
    have ih2 := ih (fun x hx => h x (by simp [hx]))
    simp [List.dropWhile_cons, ha, ih2]

theorem tw_stop (p : Char → Bool) (c : Char) (r : List Char) (h : p c = false) :
    (c :: r).takeWhile p = [] := by
  simp [List.takeWhile_cons, h]

theorem dw_stop (p : Char → Bool) (c : Char) (r : List Char) (h : p c = false) :
    (c :: r).dropWhile p = c :: r := by
  simp [List.dropWhile_cons, h]

theorem skipWs_app (pre s : List Char) (h : WsList pre) :
    skipWs (pre ++ s) = skipWs s := by
  unfold skipWs
  exact dw_app wsChar pre s h

theorem skipWs_cons_not (c : Char) (s : List Char) (h : wsChar c = false) :
    skipWs (c :: s) = c :: s := by
  unfold skipWs
  exact dw_stop wsChar c s h

theorem skipWs_cons_ws (c : Char) (s : List Char) (h : wsChar c = true) :
    skipWs (c :: s) = skipWs s := by
  simp [skipWs, List.dropWhile_cons, h]

theorem skipWs_idem (s : List Char) : skipWs (skipWs s) = skipWs s := by
  induction s with
  | nil => rfl
  | cons c r ih =>
    by_cases hc : wsChar c = true
    · have : skipWs (c :: r) = skipWs r := by simp [skipWs, List.dropWhile_cons, hc]
      rw [this, ih]
    · have hc' : wsChar c = false := by simpa using hc
      rw [skipWs_cons_not c r hc', skipWs_cons_not c r hc']

/-! ## Lemmas: decimal rendering round-trips -/

theorem digitsVal_foldl (B : List Char) : ∀ a : ℕ,
    B.foldl (fun x c => x * 10 + digitVal c) a = a * 10 ^ B.length + digitsVal B := by
  induction B with
  | nil => intro a; simp [digitsVal]
  | cons c t ih =>
    intro a
    have hdv : digitsVal (c :: t) = digitVal c * 10 ^ t.length + digitsVal t := by
      unfold digitsVal
      simp only [List.foldl_cons]
      rw [ih (0 * 10 + digitVal c)]
      simp [digitsVal]
    simp only [List.foldl_cons, List.length_cons]
    rw [ih (a * 10 + digitVal c), hdv, pow_succ]
    ring

theorem digitsVal_append (A B : List Char) :
    digitsVal (A ++ B) = digitsVal A * 10 ^ B.length + digitsVal B := by
  unfold digitsVal
  rw [List.foldl_append]
  exact digitsVal_foldl B _

theorem digitsVal_replicate_zero (k : ℕ) (L : List Char) :
    digitsVal (List.replicate k '0' ++ L) = digitsVal L := by
  induction k with
  | zero => simp
  | succ k ih =>
    simp only [List.replicate_succ, List.cons_append]
    unfold digitsVal
    simp only [List.foldl_cons]
    have h0 : (0 : ℕ) * 10 + digitVal '0' = 0 := by decide
    rw [h0]
    exact ih

theorem natToDigitsF_spec : ∀ fuel n, n < fuel →
    digitsVal (natToDigitsF fuel n) = n
    ∧ natToDigitsF fuel n ≠ []
    ∧ (∀ c ∈ natToDigitsF fuel n, isDigitC c = true) := by
  intro fuel
  induction fuel with
  | zero => intro n h; omega
  | succ f ih =>
    intro n hn
    by_cases h10 : n < 10
    · rw [show natToDigitsF (f + 1) n = [digitChar n] from by simp [natToDigitsF, h10]]
      refine ⟨?_, by simp, ?_⟩
      · unfold digitsVal
        simp [digitVal_digitChar n h10]
      · intro c hc
        simp at hc
        subst hc
        exact isDigitC_digitChar n h10
    · have hd : natToDigitsF (f + 1) n = natToDigitsF f (n / 10) ++ [digitChar (n % 10)] := by
        simp [natToDigitsF, h10]
      have hlt : n / 10 < n := Nat.div_lt_self (by omega) (by omega)
      have hrec : n / 10 < f := by omega
      obtain ⟨ihv, ihne, ihd⟩ := ih (n / 10) hrec
      rw [hd]
      refine ⟨?_, by simp, ?_⟩
      · rw [digitsVal_append, ihv]
        have hone : digitsVal [digitChar (n % 10)] = n % 10 := by
          unfold digitsVal
          simp [digitVal_digitChar (n % 10) (Nat.mod_lt _ (by omega))]
        rw [hone]
        simp only [List.length_singleton, pow_one]
        omega
      · intro c hc
        simp only [List.mem_append, List.mem_singleton] at hc
        rcases hc with hc | hc
        · exact ihd c hc
        · subst hc
          exact isDigitC_digitChar _ (Nat.mod_lt _ (by omega))

theorem natToDigitsF_len : ∀ fuel n k, n < fuel → n < 10 ^ (k + 1) →
    (natToDigitsF fuel n).length ≤ k + 1 := by
  intro fuel
  induction fuel with
  | zero => intro n k h _; omega
  | succ f ih =>
    intro n k hn hk
    by_cases h10 : n < 10
    · simp [natToDigitsF, h10]
    · have hd : natToDigitsF (f + 1) n = natToDigitsF f (n / 10) ++ [digitChar (n % 10)] := by
        simp [natToDigitsF, h10]
      rw [hd, List.length_append]
      cases k with
      | zero =>
        exfalso
        simp at hk
        omega
      | succ k2 =>
        have hlt : n / 10 < n := Nat.div_lt_self (by omega) (by omega)
        have hrec : n / 10 < f := by omega
        have hk2 : n / 10 < 10 ^ (k2 + 1) := by
          apply (Nat.div_lt_iff_lt_mul (by omega : 0 < 10)).mpr
          rw [← pow_succ]
          exact hk
        have := ih (n / 10) k2 hrec hk2
        simp only [List.length_singleton]
        omega

theorem natToDigits_spec (n : ℕ) :
    digitsVal (natToDigits n) = n
    ∧ natToDigits n ≠ []
    ∧ (∀ c ∈ natToDigits n, isDigitC c = true) :=
  natToDigitsF_spec (n + 1) n (by omega)

theorem natToDigits_len (n k : ℕ) (h : n < 10 ^ (k + 1)) :
    (natToDigits n).length ≤ k + 1 :=
  natToDigitsF_len (n + 1) n k (by omega) h

theorem isEmpty_false_of_ne_nil {l : List Char} (h : l ≠ []) : l.isEmpty = false := by
  cases l with
  | nil => exact absurd rfl h
  | cons a t => rfl

theorem parseNum_rt (m d : ℕ) (rest : List Char) (hdel : DelimL rest) :
    parseNum (dumpNum m d ++ rest) = some (.jnum m d, rest) := by
  have hrest_tw : rest.takeWhile isDigitC = [] := by
    rcases hdel with h | ⟨c, r, hr, hc⟩
    · subst h; rfl
    · subst hr; exact tw_stop _ _ _ (delimChar_not_digit c hc)
  have hrest_dw : rest.dropWhile isDigitC = rest := by
    rcases hdel with h | ⟨c, r, hr, hc⟩
    · subst h; rfl
    · subst hr; exact dw_stop _ _ _ (delimChar_not_digit c hc)
  by_cases hd : d = 0
  · subst hd
    obtain ⟨hval, hne, hdig⟩ := natToDigits_spec m
    have hdump : dumpNum m 0 = natToDigits m := by simp [dumpNum]
    rw [hdump]
    simp only [parseNum, tw_app isDigitC _ rest hdig, dw_app isDigitC _ rest hdig,
      hrest_tw, hrest_dw, List.append_nil]
    rw [isEmpty_false_of_ne_nil hne]
    simp only [Bool.false_eq_true, if_false]
    rcases hdel with h | ⟨c, r, hr, hc⟩
    · subst h
      simp [hval]
    · subst hr
      have hcd : ¬ c = '.' := delimChar_ne_dot c hc
      simp [hcd, hval]
  · have hd0 : 0 < d := Nat.pos_of_ne_zero hd
    obtain ⟨hqval, hqne, hqdig⟩ := natToDigits_spec (m / 10 ^ d)
    obtain ⟨hfval, hfne, hfdig⟩ := natToDigits_spec (m % 10 ^ d)
    have hpow : 0 < 10 ^ d := by positivity
    have hfrlt : m % 10 ^ d < 10 ^ d := Nat.mod_lt _ hpow
    set pad : List Char :=
      List.replicate (d - (natToDigits (m % 10 ^ d)).length) '0'
        ++ natToDigits (m % 10 ^ d) with hpad
    have hfr_le : (natToDigits (m % 10 ^ d)).length ≤ d := by
      cases d with
      | zero => omega
      | succ d2 => exact natToDigits_len _ d2 hfrlt
    have hpadlen : pad.length = d := by
      rw [hpad, List.length_append, List.length_replicate]
      omega
    have hpaddig : ∀ c ∈ pad, isDigitC c = true := by
      intro c hc
      rw [hpad] at hc
      simp only [List.mem_append, List.mem_replicate] at hc
      rcases hc with ⟨_, hc⟩ | hc
      · subst hc; decide
      · exact hfdig c hc
    have hpadval : digitsVal pad = m % 10 ^ d := by
      rw [hpad, digitsVal_replicate_zero]
      exact hfval
    have hpadne : pad ≠ [] := by
      intro h0
      rw [h0] at hpadlen
      simp at hpadlen
      omega
    have hdump : dumpNum m d ++ rest
        = natToDigits (m / 10 ^ d) ++ ('.' :: (pad ++ rest)) := by
      simp [dumpNum, hd, hpad, List.append_assoc]
    rw [hdump]
    simp only [parseNum, tw_app isDigitC _ _ hqdig, dw_app isDigitC _ _ hqdig,
      tw_stop isDigitC '.' _ (by decide), dw_stop isDigitC '.' _ (by decide),
      List.append_nil]
    rw [isEmpty_false_of_ne_nil hqne]
    simp only [Bool.false_eq_true, if_false, if_pos rfl]
    simp only [tw_app isDigitC pad rest hpaddig, dw_app isDigitC pad rest hpaddig,
      hrest_tw, hrest_dw, List.append_nil]
    rw [isEmpty_false_of_ne_nil hpadne]
    simp only [Bool.false_eq_true, if_false]
    rw [hqval, hpadval, hpadlen]
    have hm : m / 10 ^ d * 10 ^ d + m % 10 ^ d = m := by
      rw [Nat.mul_comm]
      exact Nat.div_add_mod m (10 ^ d)
    rw [hm]
    simp

/-! ## Lemmas: serializer shape -/

theorem jsize_pos (v : JVal) : 1 ≤ jsize v := by
  cases v <;> simp [jsize]

theorem lsize_pos (l : List JVal) : 1 ≤ lsize l := by
  cases l with
  | nil => simp [lsize]
  | cons v t => simp [lsize]; omega

theorem fsize_pos (fs : List (List Char × JVal)) : 1 ≤ fsize fs := by
  cases fs with
  | nil => simp [fsize]
  | cons kv t => obtain ⟨k, v⟩ := kv; simp [fsize]; omega

theorem dumpNum_head (m d : ℕ) : ∃ c r, dumpNum m d = c :: r ∧ isDigitC c = true := by
  by_cases hd : d = 0
  · subst hd
    simp only [dumpNum, if_pos rfl]
    obtain ⟨_, hne, hdig⟩ := natToDigits_spec m
    obtain ⟨c, r, hcr⟩ := List.exists_cons_of_ne_nil hne
    exact ⟨c, r, hcr, hdig c (by rw [hcr]; simp)⟩
  · simp only [dumpNum, if_neg hd]
    obtain ⟨_, hne, hdig⟩ := natToDigits_spec (m / 10 ^ d)
    obtain ⟨c, r, hcr⟩ := List.exists_cons_of_ne_nil hne
    refine ⟨c, r ++ '.' :: (List.replicate (d - (natToDigits (m % 10 ^ d)).length) '0'
      ++ natToDigits (m % 10 ^ d)), ?_, hdig c (by rw [hcr]; simp)⟩
    rw [hcr]
    simp

theorem dumps_head_facts (v : JVal) : ∃ c r, dumps v = c :: r
    ∧ wsChar c = false ∧ c ≠ ']' ∧ c ≠ cbr ∧ c ≠ ',' := by
  have core : ∃ c r, dumps v = c :: r
      ∧ (c = qc ∨ c = '[' ∨ c = obr ∨ isDigitC c = true) := by
    cases v with
    | jstr s => exact ⟨qc, s ++ [qc], by simp [dumps], Or.inl rfl⟩
    | jnum m d =>
      obtain ⟨c, r, hcr, hdg⟩ := dumpNum_head m d
      exact ⟨c, r, by simp [dumps, hcr], Or.inr (Or.inr (Or.inr hdg))⟩
    | jarr l => exact ⟨'[', sepBody ' ' l ++ [']'], by simp [dumps], Or.inr (Or.inl rfl)⟩
    | jobj fs => exact ⟨obr, sepFields fs ++ [cbr], by simp [dumps], Or.inr (Or.inr (Or.inl rfl))⟩
  obtain ⟨c, r, hcr, hcls⟩ := core
  refine ⟨c, r, hcr, ?_, ?_, ?_, ?_⟩
  · rcases hcls with h | h | h | h
    · subst h; decide
    · subst h; decide
    · subst h; decide
    · exact not_ws_of_digit c h
  · rcases hcls with h | h | h | h
    · subst h; decide
    · subst h; decide
    · subst h; decide
    · exact (digit_ne_special c h).2.2.2.1
  · rcases hcls with h | h | h | h
    · subst h; decide
    · subst h; decide
    · subst h; decide
    · intro he
      have h1 := isDigitC_toNat c h
      have := toNat_eq_of_eq he
      simp [cbr] at this
      omega
  · rcases hcls with h | h | h | h
    · subst h; decide
    · subst h; decide
    · subst h; decide
    · exact (digit_ne_special c h).2.2.2.2.1

theorem parseValue_skip (fuel : ℕ) (s s' : List Char) (h : skipWs s = skipWs s') :
    parseValue fuel s = parseValue fuel s' := by
  cases fuel with
  | zero => rfl
  | succ f => simp only [parseValue]; rw [h]

theorem delim_post (post rest : List Char) (hpost : WsList post) (c : Char)
    (hc : delimChar c = true) : DelimL (post ++ c :: rest) := by
  cases post with
  | nil => exact Or.inr ⟨c, rest, rfl, hc⟩
  | cons a t =>
    refine Or.inr ⟨a, t ++ c :: rest, rfl, ?_⟩
    have := hpost a (by simp)
    simp [delimChar, this]

/-! ## The parser round-trip -/

theorem parse_rt : ∀ fuel : ℕ,
    (∀ v rest, WFJ v → jsize v ≤ fuel → DelimL rest →
      parseValue fuel (dumps v ++ rest) = some (v, rest))
    ∧ (∀ c l pre post rest, wsChar c = true → WFL l → lsize l ≤ fuel →
        WsList pre → WsList post →
        parseItems fuel (pre ++ (sepBody c l ++ (post ++ ']' :: rest))) = some (l, rest))
    ∧ (∀ fs pre post rest, WFF fs → fsize fs ≤ fuel →
        WsList pre → WsList post →
        parseFields fuel (pre ++ (sepFields fs ++ (post ++ cbr :: rest))) = some (fs, rest)) := by
  intro fuel
  induction fuel with
  | zero =>
    refine ⟨fun v rest _ hsz _ => absurd hsz (by have := jsize_pos v; omega),
            fun c l pre post rest _ _ hsz _ _ => absurd hsz (by have := lsize_pos l; omega),
            fun fs pre post rest _ hsz _ _ => absurd hsz (by have := fsize_pos fs; omega)⟩
  | succ f ih =>
    obtain ⟨ihV, ihI, ihF⟩ := ih
    refine ⟨?_, ?_, ?_⟩
    · -- parseValue
      intro v rest hwf hsz hdel
      cases v with
      | jstr s =>
        have hq : qc ∉ s := hwf
        have hnq : ∀ a ∈ s, (a != qc) = true := fun a ha =>
          bne_iff_ne.mpr (fun he => hq (he ▸ ha))
        have hin : dumps (.jstr s) ++ rest = qc :: (s ++ qc :: rest) := by
          simp [dumps]
        rw [hin]
        simp only [parseValue]
        rw [skipWs_cons_not qc _ (by decide)]
        have htw : (s ++ qc :: rest).takeWhile (fun x => x != qc) = s := by
          rw [tw_app _ _ _ hnq, tw_stop _ qc _ (by simp)]
          simp
        have hdw : (s ++ qc :: rest).dropWhile (fun x => x != qc) = qc :: rest := by
          rw [dw_app _ _ _ hnq, dw_stop _ qc _ (by simp)]
        simp [htw, hdw]
      | jnum m d =>
        obtain ⟨c0, r0, hcr, hdg⟩ := dumpNum_head m d
        have hne := digit_ne_special c0 hdg
        have hin : dumps (.jnum m d) ++ rest = c0 :: (r0 ++ rest) := by
          simp [dumps, hcr]
        rw [hin]
        simp only [parseValue]
        rw [skipWs_cons_not c0 _ (not_ws_of_digit c0 hdg)]
        simp only [if_neg hne.1, if_neg hne.2.1, if_neg hne.2.2.1, hdg, if_true]
        rw [show c0 :: (r0 ++ rest) = dumpNum m d ++ rest from by rw [hcr]; simp]
        exact parseNum_rt m d rest hdel
      | jarr l =>
        have hwl : WFL l := hwf
        have hsz' : lsize l ≤ f := by
          have h1 : jsize (.jarr l) = 1 + lsize l := by simp [jsize]
          omega
        have hin : dumps (.jarr l) ++ rest = '[' :: (sepBody ' ' l ++ (']' :: rest)) := by
          simp [dumps]
        rw [hin]
        simp only [parseValue]
        rw [skipWs_cons_not '[' _ (by decide)]
        have hitems := ihI ' ' l [] [] rest (by decide) hwl hsz'
          (by intro x hx; simp at hx) (by intro x hx; simp at hx)
        simp only [List.nil_append] at hitems
        simp [if_neg (show ¬('[' = qc) from by decide), hitems]
      | jobj fs =>
        have hwfs : WFF fs := hwf
        have hsz' : fsize fs ≤ f := by
          have h1 : jsize (.jobj fs) = 1 + fsize fs := by simp [jsize]
          omega
        have hin : dumps (.jobj fs) ++ rest = obr :: (sepFields fs ++ (cbr :: rest)) := by
          simp [dumps]
        rw [hin]
        simp only [parseValue]
        rw [skipWs_cons_not obr _ (by decide)]
        have hflds := ihF fs [] [] rest hwfs hsz'
          (by intro x hx; simp at hx) (by intro x hx; simp at hx)
        simp only [List.nil_append] at hflds
        simp [if_neg (show ¬(obr = qc) from by decide),
          if_neg (show ¬(obr = '[') from by decide), hflds]
    · -- parseItems
      intro c l pre post rest hc hwl hsz hpre hpost
      cases l with
      | nil =>
        have hin : pre ++ (sepBody c [] ++ (post ++ ']' :: rest))
            = pre ++ (post ++ ']' :: rest) := by simp [sepBody]
        rw [hin]
        simp only [parseItems]
        rw [skipWs_app pre _ hpre, skipWs_app post _ hpost,
          skipWs_cons_not ']' _ (by decide)]
        simp
      | cons v t =>
        obtain ⟨hwv, hwt⟩ := hwl
        obtain ⟨c0, r0, hcr, hws0, hnrb, hncb, hncm⟩ := dumps_head_facts v
        cases t with
        | nil =>
          have hsz' : jsize v ≤ f := by
            have h1 : lsize [v] = 1 + jsize v + 1 := by simp [lsize]
            omega
          have hone : sepBody c [v] = dumps v := by simp [sepBody]
          rw [hone]
          simp only [parseItems]
          have hskip : skipWs (pre ++ (dumps v ++ (post ++ ']' :: rest)))
              = c0 :: (r0 ++ (post ++ ']' :: rest)) := by
            rw [skipWs_app pre _ hpre, hcr, List.cons_append]
            exact skipWs_cons_not c0 _ hws0
          rw [hskip]
          have hpv : parseValue f (pre ++ (dumps v ++ (post ++ ']' :: rest)))
              = some (v, post ++ ']' :: rest) := by
            rw [parseValue_skip f _ (dumps v ++ (post ++ ']' :: rest))
              (skipWs_app pre _ hpre)]
            exact ihV v _ hwv hsz' (delim_post post rest hpost ']' (by decide))
          simp only [if_neg hnrb, hpv]
          rw [skipWs_app post _ hpost, skipWs_cons_not ']' _ (by decide)]
          simp
        | cons w t2 =>
          have hszs : jsize v ≤ f ∧ lsize (w :: t2) ≤ f := by
            have h1 : lsize (v :: w :: t2) = 1 + jsize v + lsize (w :: t2) := by
              simp [lsize]
            have h2 := jsize_pos v
            have h3 := lsize_pos (w :: t2)
            omega
          have hin : pre ++ (sepBody c (v :: w :: t2) ++ (post ++ ']' :: rest))
              = pre ++ (dumps v ++ (',' :: c :: (sepBody c (w :: t2)
                  ++ (post ++ ']' :: rest)))) := by
            have hsep : sepBody c (v :: w :: t2)
                = dumps v ++ ',' :: c :: sepBody c (w :: t2) := by simp [sepBody]
            rw [hsep]
            simp
          rw [hin]
          simp only [parseItems]
          have hskip : skipWs (pre ++ (dumps v ++ (',' :: c :: (sepBody c (w :: t2)
              ++ (post ++ ']' :: rest)))))
              = c0 :: (r0 ++ (',' :: c :: (sepBody c (w :: t2)
                  ++ (post ++ ']' :: rest)))) := by
            rw [skipWs_app pre _ hpre, hcr, List.cons_append]
            exact skipWs_cons_not c0 _ hws0
          rw [hskip]
          have hpv : parseValue f (pre ++ (dumps v ++ (',' :: c :: (sepBody c (w :: t2)
              ++ (post ++ ']' :: rest)))))
              = some (v, ',' :: c :: (sepBody c (w :: t2) ++ (post ++ ']' :: rest))) := by
            rw [parseValue_skip f _ (dumps v ++ (',' :: c :: (sepBody c (w :: t2)
              ++ (post ++ ']' :: rest)))) (skipWs_app pre _ hpre)]
            exact ihV v _ hwv hszs.1 (Or.inr ⟨',', _, rfl, by decide⟩)
          simp only [if_neg hnrb, hpv]
          rw [skipWs_cons_not ',' _ (by decide)]
          have hitems : parseItems f (c :: (sepBody c (w :: t2)
              ++ (post ++ ']' :: rest))) = some (w :: t2, rest) := by
            have h0 := ihI c (w :: t2) [c] post rest hc hwt hszs.2
              (by intro x hx; simp at hx; subst hx; exact hc) hpost
            simpa using h0
          simp [hitems]
    · -- parseFields
      intro fs pre post rest hwf hsz hpre hpost
      cases fs with
      | nil =>
        have hin : pre ++ (sepFields [] ++ (post ++ cbr :: rest))
            = pre ++ (post ++ cbr :: rest) := by simp [sepFields]
        rw [hin]
        simp only [parseFields]
        rw [skipWs_app pre _ hpre, skipWs_app post _ hpost,
          skipWs_cons_not cbr _ (by decide)]
        simp
      | cons kv t =>
        obtain ⟨k, v⟩ := kv
        obtain ⟨hk, hwv, hwt⟩ := hwf
        have hnq : ∀ a ∈ k, (a != qc) = true := fun a ha =>
          bne_iff_ne.mpr (fun he => hk (he ▸ ha))
        obtain ⟨c0, r0, hcr, hws0, hnrb, hncb, hncm⟩ := dumps_head_facts v
        cases t with
        | nil =>
          have hsz' : jsize v ≤ f := by
            have h1 : fsize [(k, v)] = 1 + jsize v + 1 := by simp [fsize]
            omega
          have hin : pre ++ (sepFields [(k, v)] ++ (post ++ cbr :: rest))
              = pre ++ (qc :: (k ++ qc :: ':' :: ' ' :: (dumps v
                  ++ (post ++ cbr :: rest)))) := by
            have hone : sepFields [(k, v)] = qc :: k ++ qc :: ':' :: ' ' :: dumps v := by
              simp [sepFields]
            rw [hone]
            simp
          rw [hin]
          simp only [parseFields]
          rw [skipWs_app pre _ hpre, skipWs_cons_not qc _ (by decide)]
          have htw : (k ++ qc :: ':' :: ' ' :: (dumps v ++ (post ++ cbr :: rest))).takeWhile
              (fun x => x != qc) = k := by
            rw [tw_app _ _ _ hnq, tw_stop _ qc _ (by simp)]
            simp
          have hdw : (k ++ qc :: ':' :: ' ' :: (dumps v ++ (post ++ cbr :: rest))).dropWhile
              (fun x => x != qc)
              = qc :: ':' :: ' ' :: (dumps v ++ (post ++ cbr :: rest)) := by
            rw [dw_app _ _ _ hnq, dw_stop _ qc _ (by simp)]
          have hpv : parseValue f (' ' :: (dumps v ++ (post ++ cbr :: rest)))
              = some (v, post ++ cbr :: rest) := by
            rw [parseValue_skip f (' ' :: (dumps v ++ (post ++ cbr :: rest)))
              (dumps v ++ (post ++ cbr :: rest)) (skipWs_cons_ws ' ' _ (by decide))]
            exact ihV v _ hwv hsz' (delim_post post rest hpost cbr (by decide))
          have hq1 : ¬(qc = cbr) := by decide
          have hq2 : ¬(cbr = ',') := by decide
          have hsk1 : skipWs (':' :: ' ' :: (dumps v ++ (post ++ cbr :: rest)))
              = ':' :: ' ' :: (dumps v ++ (post ++ cbr :: rest)) :=
            skipWs_cons_not ':' _ (by decide)
          have hsk2 : skipWs (post ++ cbr :: rest) = cbr :: rest := by
            rw [skipWs_app post _ hpost]
            exact skipWs_cons_not cbr _ (by decide)
          simp [hq1, hq2, htw, hdw, hpv, hsk1, hsk2]
        | cons f2 t2 =>
          have hszs : jsize v ≤ f ∧ fsize (f2 :: t2) ≤ f := by
            have h1 : fsize ((k, v) :: f2 :: t2) = 1 + jsize v + fsize (f2 :: t2) := by
              simp [fsize]
            have h2 := jsize_pos v
            have h3 := fsize_pos (f2 :: t2)
            omega
          have hin : pre ++ (sepFields ((k, v) :: f2 :: t2) ++ (post ++ cbr :: rest))
              = pre ++ (qc :: (k ++ qc :: ':' :: ' ' :: (dumps v
                  ++ (',' :: ' ' :: (sepFields (f2 :: t2)
                    ++ (post ++ cbr :: rest)))))) := by
            have hsep : sepFields ((k, v) :: f2 :: t2)
                = (qc :: k ++ qc :: ':' :: ' ' :: dumps v)
                  ++ ',' :: ' ' :: sepFields (f2 :: t2) := by simp [sepFields]
            rw [hsep]
            simp
          rw [hin]
          simp only [parseFields]
          rw [skipWs_app pre _ hpre, skipWs_cons_not qc _ (by decide)]
          have htw : (k ++ qc :: ':' :: ' ' :: (dumps v ++ (',' :: ' '
              :: (sepFields (f2 :: t2) ++ (post ++ cbr :: rest))))).takeWhile
              (fun x => x != qc) = k := by
            rw [tw_app _ _ _ hnq, tw_stop _ qc _ (by simp)]
            simp
          have hdw : (k ++ qc :: ':' :: ' ' :: (dumps v ++ (',' :: ' '
              :: (sepFields (f2 :: t2) ++ (post ++ cbr :: rest))))).dropWhile
              (fun x => x != qc)
              = qc :: ':' :: ' ' :: (dumps v ++ (',' :: ' '
                  :: (sepFields (f2 :: t2) ++ (post ++ cbr :: rest)))) := by
            rw [dw_app _ _ _ hnq, dw_stop _ qc _ (by simp)]
          have hpv : parseValue f (' ' :: (dumps v ++ (',' :: ' '
              :: (sepFields (f2 :: t2) ++ (post ++ cbr :: rest)))))
              = some (v, ',' :: ' ' :: (sepFields (f2 :: t2)
                  ++ (post ++ cbr :: rest))) := by
            rw [parseValue_skip f (' ' :: (dumps v ++ (',' :: ' '
              :: (sepFields (f2 :: t2) ++ (post ++ cbr :: rest)))))
              (dumps v ++ (',' :: ' ' :: (sepFields (f2 :: t2) ++ (post ++ cbr :: rest))))
              (skipWs_cons_ws ' ' _ (by decide))]
            exact ihV v _ hwv hszs.1 (Or.inr ⟨',', _, rfl, by decide⟩)
          have hflds : parseFields f (' ' :: (sepFields (f2 :: t2)
              ++ (post ++ cbr :: rest))) = some (f2 :: t2, rest) := by
            have h0 := ihF (f2 :: t2) [' '] post rest hwt hszs.2
              (by intro x hx; simp at hx; subst hx; rfl) hpost
            simpa using h0
          have hq1 : ¬(qc = cbr) := by decide
          have hsk1 : skipWs (':' :: ' ' :: (dumps v ++ (',' :: ' '
              :: (sepFields (f2 :: t2) ++ (post ++ cbr :: rest)))))
              = ':' :: ' ' :: (dumps v ++ (',' :: ' '
                :: (sepFields (f2 :: t2) ++ (post ++ cbr :: rest)))) :=
            skipWs_cons_not ':' _ (by decide)
          have hsk2 : skipWs (',' :: ' ' :: (sepFields (f2 :: t2)
              ++ (post ++ cbr :: rest)))
              = ',' :: ' ' :: (sepFields (f2 :: t2) ++ (post ++ cbr :: rest)) :=
            skipWs_cons_not ',' _ (by decide)
          simp [hq1, htw, hdw, hpv, hsk1, hsk2, hflds]

/-! ## Well-formedness and size of generated product JSON -/

theorem qc_not_in_natToDigits (n : ℕ) : qc ∉ natToDigits n := by
  intro h
  have := (natToDigits_spec n).2.2 qc h
  exact absurd this (by decide)

theorem qc_not_in_append {a b : List Char} (ha : qc ∉ a) (hb : qc ∉ b) :
    qc ∉ a ++ b := by
  intro h
  rcases List.mem_append.mp h with h | h
  · exact ha h
  · exact hb h

theorem attr_qc_free (i : ℕ) (d : Draws) :
    qc ∉ (generate_attribute i d).1 ∧ qc ∉ (generate_attribute i d).2 := by
  unfold generate_attribute
  by_cases h0 : i = 0
  · rw [if_pos h0]
    exact ⟨show qc ∉ str "RAM" by decide,
      qc_not_in_append (qc_not_in_natToDigits _) (show qc ∉ str "GB" by decide)⟩
  · rw [if_neg h0]
    by_cases h1 : i = 1
    · rw [if_pos h1]
      exact ⟨show qc ∉ str "Storage" by decide,
        qc_not_in_append (qc_not_in_natToDigits _) (show qc ∉ str "GB SSD" by decide)⟩
    · rw [if_neg h1]
      refine ⟨show qc ∉ str "Color" by decide, ?_⟩
      have hmem := pychoice_mem COLORS [] d.colorD (by decide)
      have hall : ∀ s ∈ COLORS, qc ∉ s := by decide
      exact hall _ hmem

theorem WFL_map {α : Type} (l : List α) (f : α → JVal) (h : ∀ x ∈ l, WFJ (f x)) :
    WFL (l.map f) := by
  induction l with
  | nil => trivial
  | cons a t ih => exact ⟨h a (by simp), ih (fun x hx => h x (by simp [hx]))⟩

theorem WFJ_productToJson (gid : ℕ) (d : Draws) :
    WFJ (productToJson ((generate_product_json gid d).1)) := by
  have hname : qc ∉ (generate_product_json gid d).1.name := by
    have hmem := pychoice_mem PHRASES [] d.phraseD (by decide)
    have hall : ∀ s ∈ PHRASES, qc ∉ s := by decide
    exact hall _ hmem
  have hattrs : ∀ a ∈ (generate_product_json gid d).1.attributs,
      qc ∉ a.1 ∧ qc ∉ a.2 := by
    intro a ha
    have : (generate_product_json gid d).1.attributs
        = (List.range ATTRIBUTES_PER_PRODUCT).map (fun i => generate_attribute i d) := rfl
    rw [this] at ha
    simp only [List.mem_map] at ha
    obtain ⟨i, _, hval⟩ := ha
    rw [← hval]
    exact attr_qc_free i d
  refine ⟨by decide, hname, by decide, trivial, by decide, trivial, by decide, ?_,
    by decide, trivial, by decide, trivial, by decide, trivial, trivial⟩
  exact WFL_map _ _ (fun a ha =>
    ⟨by decide, (hattrs a ha).1, by decide, (hattrs a ha).2, trivial⟩)

theorem jsize_gen (gid : ℕ) (d : Draws) :
    jsize (productToJson ((generate_product_json gid d).1)) = 38 := rfl

theorem lsize_sum (l : List JVal) :
    lsize l = (l.map (fun v => 1 + jsize v)).sum + 1 := by
  induction l with
  | nil => simp [lsize]
  | cons v t ih => simp [lsize, ih]; omega

theorem dumps_gen_len (gid : ℕ) (d : Draws) :
    20 ≤ (dumps (productToJson ((generate_product_json gid d).1))).length := by
  have h1 : (str "name").length = 4 := rfl
  have h2 : (str "price").length = 5 := rfl
  have h3 : (str "rating").length = 6 := rfl
  have h4 : (str "attributs").length = 9 := rfl
  have h5 : (str "category_id").length = 11 := rfl
  have h6 : (str "vendor_id").length = 9 := rfl
  have h7 : (str "product_id").length = 10 := rfl
  simp only [productToJson, dumps, sepFields, sepBody, dumpNum, List.length_append,
    List.length_cons, h1, h2, h3, h4, h5, h6, h7]
  omega

theorem sum_const_jsize (l : List JVal) (h : ∀ v ∈ l, jsize v = 38) :
    (l.map (fun v => 1 + jsize v)).sum = 39 * l.length := by
  induction l with
  | nil => simp
  | cons v t ih =>
    simp only [List.map_cons, List.sum_cons, List.length_cons, h v (by simp),
      ih (fun x hx => h x (by simp [hx]))]
    omega

theorem sepBody_len_ge (c : Char) (l : List JVal) (h : ∀ v ∈ l, 20 ≤ (dumps v).length) :
    20 * l.length ≤ (sepBody c l).length + 2 := by
  induction l with
  | nil => simp [sepBody]
  | cons v t ih =>
    cases t with
    | nil =>
      have hv := h v (by simp)
      simp only [sepBody, List.length_singleton]
      omega
    | cons w t2 =>
      have hv := h v (by simp)
      have ht : 20 * (t2.length + 1) ≤ (sepBody c (w :: t2)).length + 2 := by
        simpa using ih (fun x hx => h x (by simp [hx]))
      have hsep : sepBody c (v :: w :: t2) = dumps v ++ ',' :: c :: sepBody c (w :: t2) := by
        simp [sepBody]
      rw [hsep]
      simp only [List.length_append, List.length_cons]
      omega

/-! ## Claim C5 -/


theorem WFL_of_forall (l : List JVal) (h : ∀ x ∈ l, WFJ x) : WFL l := by
  induction l with
  | nil => trivial
  | cons a t ih => exact ⟨h a (by simp), ih (fun x hx => h x (by simp [hx]))⟩

/-- Parsing the incrementally written array of uniformly sized, well-formed
records recovers exactly those records. -/
theorem writer_rt (items : List JVal) (hwl : WFL items)
    (hsz : ∀ v ∈ items, jsize v = 38) (hlen : ∀ v ∈ items, 20 ≤ (dumps v).length) :
    json_loads (writerContent items) = some (.jarr items) := by
  have hlsz : lsize items = 39 * items.length + 1 := by
    rw [lsize_sum, sum_const_jsize _ hsz]
  have hbody : 20 * items.length ≤ (sepBody '\n' items).length + 2 :=
    sepBody_len_ge '\n' _ hlen
  have hclen : (writerContent items).length = (sepBody '\n' items).length + 4 := by
    simp [writerContent]
  have hpv : ∀ F, lsize items + 1 ≤ F →
      parseValue F (writerContent items) = some (.jarr items, []) := by
    intro F hF
    cases F with
    | zero =>
      have := lsize_pos items
      omega
    | succ F2 =>
      have hcontent : writerContent items
          = '[' :: ('\n' :: (sepBody '\n' items ++ ('\n' :: (']' :: [])))) := by
        simp [writerContent]
      rw [hcontent]
      simp only [parseValue]
      rw [skipWs_cons_not '[' _ (by decide)]
      have hI := (parse_rt F2).2.1 '\n' items ['\n'] ['\n'] [] (by decide) hwl (by omega)
        (by intro x hx; simp at hx; subst hx; rfl)
        (by intro x hx; simp at hx; subst hx; rfl)
      have hI2 : parseItems F2 ('\n' :: (sepBody '\n' items ++ ('\n' :: (']' :: []))))
          = some (items, []) := by
        simpa using hI
      simp [if_neg (show ¬('[' = qc) from by decide), hI2]
  have harith : lsize items + 1 ≤ 2 * (writerContent items).length + 2 := by
    rw [hlsz, hclen]
    omega
  unfold json_loads
  rw [hpv _ harith]
  have h0 : skipWs ([] : List Char) = [] := rfl
  simp [h0]

/-- C5: the incrementally written partition artifact, parsed as a whole,
yields exactly the array of the partition's serialized records; the
partition holds exactly `PRODUCTS_PER_FILE` records, and their
`product_id` values are strictly increasing. -/
theorem C5_streaming_round_trip (start : ℕ) (rnd : ℕ → Draws) :
    json_loads (writerArtifact start rnd)
      = some (.jarr ((partitionProducts start rnd).map productToJson))
    ∧ (partitionProducts start rnd).length = PRODUCTS_PER_FILE
    ∧ ((partitionProducts start rnd).map Product.product_id).Pairwise (· < ·) := by
  refine ⟨?_, by simp [partitionProducts], ?_⟩
  · have hA : ∀ v ∈ (partitionProducts start rnd).map productToJson, WFJ v := by
      intro v hv
      simp only [partitionProducts, List.map_map, List.mem_map] at hv
      obtain ⟨i, _, hval⟩ := hv
      rw [← hval]
      exact WFJ_productToJson _ _
    have hB : ∀ v ∈ (partitionProducts start rnd).map productToJson, jsize v = 38 := by
      intro v hv
      simp only [partitionProducts, List.map_map, List.mem_map] at hv
      obtain ⟨i, _, hval⟩ := hv
      rw [← hval]
      exact jsize_gen _ _
    have hC : ∀ v ∈ (partitionProducts start rnd).map productToJson,
        20 ≤ (dumps v).length := by
      intro v hv
      simp only [partitionProducts, List.map_map, List.mem_map] at hv
      obtain ⟨i, _, hval⟩ := hv
      rw [← hval]
      exact dumps_gen_len _ _
    show json_loads (writerContent ((partitionProducts start rnd).map productToJson))
        = some (.jarr ((partitionProducts start rnd).map productToJson))
    generalize hItems : (partitionProducts start rnd).map productToJson = items at hA hB hC ⊢
    exact writer_rt items (WFL_of_forall items hA) hB hC
  · rw [partitionProducts_map_product_id]
    unfold partitionIds
    refine List.Pairwise.map _ (fun a b hab => ?_) (List.pairwise_lt_range PRODUCTS_PER_FILE)
    omega
